import Mathlib

/-!
# digital-identity: chain engine, auth policy and file store

A shallow embedding of `pkg/chain`, `pkg/auth` and `pkg/store`.

* Go strings are Lean strings, byte slices are lists of `Fin 256`.
* A pointer that the code tests against `nil` is an `Option`.
* A function that mutates its receiver returns the receiver's final state next to its result.
* A call can end in three ways: it returns `nil`, it returns an error, or it aborts with a
  run-time fault (`Outcome.fault`), which is how the standard library reacts to an out-of-range
  slice or to a key of the wrong length.
* The digest, the signature scheme and the JSON encoder are parameters (`Primitives`);
  `encoding/hex`, `encoding/base64` and `PrivateKey.Public` are modelled concretely after the
  standard library.
* A `time.Time` is an instant with the offset of its location; `Time.MarshalJSON` reads the year
  and the zone hour in that location.
* The store is embedded twice: on chain values (`Store`), where a pointer stands for the chain it
  points to, and on a memory of structs and backing arrays (`Mem`), where what the caller and
  the store share is visible and a caller can write through the pointers it holds.
-/

namespace DigitalIdentity

/-! ## Bytes -/

abbrev Byte := Fin 256

abbrev Bytes := List Byte

/-- Truncation of an unsigned value to its low eight bits, `byte(v)`. -/
def byteOf (n : Nat) : Byte := ⟨n % 256, Nat.mod_lt n (by decide)⟩

/-- How a call ends: `ok` is a `nil` error, `error` a returned error, `fault` a run-time abort. -/
inductive Outcome (ε : Type) where
  | ok : Outcome ε
  | error (e : ε) : Outcome ε
  | fault : Outcome ε
deriving DecidableEq, Repr

deriving instance DecidableEq for Except

/-! ## encoding/hex -/

namespace Hex

/-- The table `hextable` of `encoding/hex`. -/
def hextable : List Char := "0123456789abcdef".toList

def hexDigit (n : Nat) : Char := hextable.getD n '0'

/-- One byte `v` is written as `hextable[v>>4]`, `hextable[v&0x0f]`. -/
def encodeByte (v : Byte) : List Char := [hexDigit (v.val / 16), hexDigit (v.val % 16)]

def encodeChars : Bytes → List Char
  | [] => []
  | v :: rest => encodeByte v ++ encodeChars rest

/-- The function `hex.EncodeToString`. -/
def EncodeToString (src : Bytes) : String := String.mk (encodeChars src)

/-- The table `reverseHexTable`: both cases of the letters are accepted. -/
def fromHexChar (c : Char) : Option Nat :=
  if '0' ≤ c ∧ c ≤ '9' then some (c.toNat - 48)
  else if 'a' ≤ c ∧ c ≤ 'f' then some (c.toNat - 97 + 10)
  else if 'A' ≤ c ∧ c ≤ 'F' then some (c.toNat - 65 + 10)
  else none

/-- The loop of `hex.Decode`: pairs of digits, an error on a bad digit or an odd length. -/
def decodeChars : List Char → Option Bytes
  | [] => some []
  | [_] => none
  | p :: q :: rest =>
    match fromHexChar p, fromHexChar q with
    | some a, some b =>
      match decodeChars rest with
      | some out => some (byteOf (a * 16 + b) :: out)
      | none => none
    | _, _ => none

/-- The function `hex.DecodeString`; `none` is a non-nil error. -/
def DecodeString (s : String) : Option Bytes := decodeChars s.data

end Hex

/-! ## encoding/base64, `StdEncoding` -/

namespace Base64

/-- The alphabet `encodeStd`. -/
def encodeStd : List Char :=
  "ABCDEFGHIJKLMNOPQRSTUVWXYZabcdefghijklmnopqrstuvwxyz0123456789+/".toList

def encodeSym (n : Nat) : Char := encodeStd.getD n 'A'

/-- The array `decodeMap`: the position of a character in the alphabet, `none` for `0xff`. -/
def decodeMap (c : Char) : Option Nat :=
  let i := encodeStd.indexOf c
  if i < 64 then some i else none

/-- The loop of `Encoding.Encode` with padding: three bytes give four symbols
(`val = b0<<16 | b1<<8 | b2`, symbols `val>>18&0x3F`, `val>>12&0x3F`, `val>>6&0x3F`, `val&0x3F`). -/
def encodeChars : Bytes → List Char
  | a :: b :: c :: rest =>
    let val := a.val * 65536 + b.val * 256 + c.val
    encodeSym (val / 262144 % 64) :: encodeSym (val / 4096 % 64) :: encodeSym (val / 64 % 64)
      :: encodeSym (val % 64) :: encodeChars rest
  | [a, b] =>
    let val := a.val * 65536 + b.val * 256
    [encodeSym (val / 262144 % 64), encodeSym (val / 4096 % 64), encodeSym (val / 64 % 64), '=']
  | [a] =>
    let val := a.val * 65536
    [encodeSym (val / 262144 % 64), encodeSym (val / 4096 % 64), '=', '=']
  | [] => []

/-- The function `StdEncoding.EncodeToString`. -/
def EncodeToString (src : Bytes) : String := String.mk (encodeChars src)

def isNewline (c : Char) : Bool := c == '\n' || c == '\r'

/-- The inner loops `for si < len(src) && (src[si] == '\n' || src[si] == '\r')`. -/
def skipNewlines : List Char → List Char
  | [] => []
  | c :: cs => if isNewline c then skipNewlines cs else c :: cs

/-- The value `dbuf[0]<<18 | dbuf[1]<<12 | dbuf[2]<<6 | dbuf[3]` of a quantum; the digits are
below 64, so the fields do not overlap and the bitwise or is a sum. Missing digits are zero. -/
def quantumVal (dbuf : List Nat) : Nat :=
  dbuf.getD 0 0 * 262144 + dbuf.getD 1 0 * 4096 + dbuf.getD 2 0 * 64 + dbuf.getD 3 0

/-- The bytes a quantum of `dlen` digits yields: `dlen - 1` of `val>>16`, `val>>8`, `val`. -/
def quantumBytes (dbuf : List Nat) : Bytes :=
  let val := quantumVal dbuf
  ([byteOf (val / 65536), byteOf (val / 256), byteOf val]).take (dbuf.length - 1)

/-- The functions `Encoding.Decode` and `decodeQuantum` in non-strict mode: `dbuf` holds the
digits of the quantum read so far, `out` the bytes decoded so far. New lines are skipped
everywhere, a quantum that ends early without padding is an error, and after the padding only
new lines may follow. `none` is a non-nil error. -/
def decodeLoop : List Char → List Nat → Bytes → Option Bytes
  | [], dbuf, out => if dbuf.isEmpty then some out else none
  | c :: cs, dbuf, out =>
    match decodeMap c with
    | some v =>
      if dbuf.length = 3 then decodeLoop cs [] (out ++ quantumBytes (dbuf ++ [v]))
      else decodeLoop cs (dbuf ++ [v]) out
    | none =>
      if isNewline c then decodeLoop cs dbuf out
      else if c ≠ '=' then none
      else if dbuf.length = 2 then
        match skipNewlines cs with
        | [] => none
        | d :: rest =>
          if d ≠ '=' then none
          else if (skipNewlines rest).isEmpty then some (out ++ quantumBytes dbuf) else none
      else if dbuf.length = 3 then
        if (skipNewlines cs).isEmpty then some (out ++ quantumBytes dbuf) else none
      else none

/-- The function `StdEncoding.DecodeString`; `none` is a non-nil error. -/
def DecodeString (s : String) : Option Bytes := decodeLoop s.data [] []

end Base64

/-! ## crypto/ed25519, crypto/sha256, encoding/json, time -/

/-- A `time.Time`: an instant and the offset of its location. `sec` counts the seconds of the
instant since January 1, year 1, 00:00:00 UTC, `nsec` the nanoseconds within that second, and
`offset` the seconds east of UTC of the value's location at that instant (0 for UTC). -/
structure Time where
  sec : Int
  nsec : Nat
  offset : Int
deriving DecidableEq, Repr

namespace Time

/-- The method `Time.IsZero`: the instant is January 1, year 1, 00:00:00 UTC, whatever the
location (`t.sec() == 0 && t.nsec() == 0`). -/
def IsZero (t : Time) : Bool := t.sec == 0 && t.nsec == 0

/-- The method `Time.UTC`: the same instant with the location set to UTC. -/
def UTC (t : Time) : Time := { t with offset := 0 }

/-- The start of year 0 in seconds since the start of year 1: year 0 is a leap year of 366
days. -/
def yearZeroStart : Int := -(366 * 86400)

/-- The start of year 10000 in seconds since the start of year 1: 9999 years of 365 days and
the leap days of the years 1 to 9999 (2499 fourth years, less 99 centuries, plus 24 fourth
centuries). -/
def yearTenThousandStart : Int := (9999 * 365 + 2499 - 99 + 24) * 86400

/-- The year of the wall clock that the value shows in its own location (`sec + offset`) is
within `[0,9999]`. -/
def yearInRange (t : Time) : Bool :=
  decide (yearZeroStart ≤ t.sec + t.offset) && decide (t.sec + t.offset < yearTenThousandStart)

/-- The hour field of the zone as the RFC 3339 layout writes it: `zone := offset / 60` in
minutes, sign written apart, then `zone / 60`. -/
def zoneHour (t : Time) : Nat := t.offset.natAbs / 60 / 60

/-- The method `Time.MarshalJSON` returns no error: the year in the value's own location is
within `[0,9999]` and the hour of the zone offset is within `[0,23]`. -/
def marshalable (t : Time) : Bool := t.yearInRange && decide (t.zoneHour < 24)

end Time

/-- The two clock readings `AppendEvent` can make: `time.Now()` for a missing timestamp and
`time.Now().UnixNano()` inside `newEventID`. -/
structure Clock where
  now : Time
  unixNano : Int
deriving DecidableEq, Repr

namespace Ed25519

/-- The method `PrivateKey.Public`: `copy(publicKey, priv[32:])` into 32 zero bytes. The slice
expression aborts when the key is shorter than 32 bytes (`none`). -/
def Public (priv : Bytes) : Option Bytes :=
  if priv.length < 32 then none
  else
    let tail := (priv.drop 32).take 32
    some (tail ++ List.replicate (32 - tail.length) 0)

end Ed25519

/-! ## pkg/chain/types.go -/

namespace Chain

/-- The struct `IdentityEvent`; `EventType` is a string type, the field `Type` is written
`Type_`, and the payload map is kept as its list of entries. -/
structure IdentityEvent where
  ID : String
  Type_ : String
  Timestamp : Time
  ActorID : String
  Risk : String
  Payload : List (String × String)
deriving DecidableEq, Repr

/-- The struct `BlockLink`. -/
structure BlockLink where
  Index : Nat
  PrevHash : String
  EventHash : String
  Hash : String
  Signature : String
  SignerPublicKey : String
deriving DecidableEq, Repr

/-- The struct `IdentityChain`. -/
structure IdentityChain where
  OwnerID : String
  RootPublicKey : String
  CreatedAt : Time
  Blocks : List BlockLink
deriving DecidableEq, Repr

end Chain

/-- The library functions the code calls and that are not modelled concretely.

* `sha256 s` is `sha256.Sum256([]byte(s))`.
* `ed25519Sign priv msg` is `ed25519.Sign` on a 64-byte private key (it aborts on any other
  length, see `Chain.AppendEvent`).
* `ed25519Verify pub msg sig` is `ed25519.Verify` on a 32-byte public key (it aborts on any
  other length, see `Chain.Verify`).
* `ed25519PublicFromSeed seed` is the public half `ed25519.NewKeyFromSeed` derives.
* `jsonMarshalEvent e` is the text `json.Marshal(e)` yields when it returns no error. -/
structure Primitives where
  sha256 : String → Bytes
  ed25519Sign : Bytes → Bytes → Bytes
  ed25519Verify : Bytes → Bytes → Bytes → Bool
  ed25519PublicFromSeed : Bytes → Bytes
  jsonMarshalEvent : Chain.IdentityEvent → String

/-! ## pkg/chain/service.go -/

namespace Chain

def genesisPrevHash : String := "GENESIS"

/-- The errors `AppendEvent` returns, one per `fmt.Errorf` site. -/
inductive AppendError where
  | chainNil
  | keyRequired
  | notRootOwner
  | typeRequired
  | actorRequired
  | marshalEvent
  | decodeLinkHash
deriving DecidableEq, Repr

/-- The kinds of error `Verify` returns for a block. -/
inductive VerifyReason where
  | prevHashMismatch
  | hashMismatch
  | signerKeyDecode
  | signatureDecode
  | hashDecode
  | signatureFailed
deriving DecidableEq, Repr

/-- The errors `Verify` returns: `chain is nil`, or `block %d ...` with the loop index. -/
inductive VerifyError where
  | chainNil
  | block (i : Nat) (reason : VerifyReason)
deriving DecidableEq, Repr

/-- The function `NewIdentityChain`; `now` is the reading of `time.Now().UTC()`. -/
def NewIdentityChain (now : Time) (ownerID : String) (rootPublicKey : Bytes) : IdentityChain :=
  { OwnerID := ownerID
    RootPublicKey := Base64.EncodeToString rootPublicKey
    CreatedAt := now
    Blocks := [] }

/-- The function `newEventID`: `%s|%s|%s|%d` of type, actor, risk and the clock, digested. -/
def newEventID (P : Primitives) (unixNano : Int) (e : IdentityEvent) : String :=
  let raw := e.Type_ ++ "|" ++ e.ActorID ++ "|" ++ e.Risk ++ "|" ++ toString unixNano
  Hex.EncodeToString (P.sha256 raw)

/-- The function `hashEvent`: `json.Marshal` fails on a timestamp it cannot write. -/
def hashEvent (P : Primitives) (e : IdentityEvent) : Except AppendError String :=
  if e.Timestamp.marshalable then
    .ok (Hex.EncodeToString (P.sha256 (P.jsonMarshalEvent e)))
  else .error .marshalEvent

/-- The function `hashLink`: `%d|%s|%s` of index, previous hash and event hash, digested. -/
def hashLink (P : Primitives) (b : BlockLink) : String :=
  let raw := toString b.Index ++ "|" ++ b.PrevHash ++ "|" ++ b.EventHash
  Hex.EncodeToString (P.sha256 raw)

/-- The function `AppendEvent`. The result is the chain behind the pointer after the call and
how the call ended. -/
def AppendEvent (P : Primitives) (clk : Clock) (c : Option IdentityChain) (e : IdentityEvent)
    (signerPrivateKey : Bytes) : Option IdentityChain × Outcome AppendError :=
  match c with
  | none => (none, .error .chainNil)
  | some c =>
    if signerPrivateKey.length = 0 then (some c, .error .keyRequired)
    else
      match Ed25519.Public signerPrivateKey with
      | none => (some c, .fault)
      | some pub =>
        let signerPub := Base64.EncodeToString pub
        if signerPub ≠ c.RootPublicKey then (some c, .error .notRootOwner)
        else if e.Type_ = "" then (some c, .error .typeRequired)
        else if e.ActorID = "" then (some c, .error .actorRequired)
        else
          let e := if e.Timestamp.IsZero then { e with Timestamp := clk.now.UTC } else e
          let e := if e.ID = "" then { e with ID := newEventID P clk.unixNano e } else e
          match hashEvent P e with
          | .error err => (some c, .error err)
          | .ok eh =>
            let prevHash :=
              match c.Blocks.getLast? with
              | some last => last.Hash
              | none => genesisPrevHash
            let next : BlockLink :=
              { Index := c.Blocks.length, PrevHash := prevHash, EventHash := eh, Hash := "",
                Signature := "", SignerPublicKey := "" }
            let next := { next with Hash := hashLink P next }
            match Hex.DecodeString next.Hash with
            | none => (some c, .error .decodeLinkHash)
            | some hashBytes =>
              if signerPrivateKey.length ≠ 64 then (some c, .fault)
              else
                let sig := P.ed25519Sign signerPrivateKey hashBytes
                let next := { next with Signature := Base64.EncodeToString sig }
                let next := { next with SignerPublicKey := signerPub }
                (some { c with Blocks := c.Blocks ++ [next] }, .ok)

/-- The value `expectedPrev` of the loop body at index `i`. -/
def expectedPrev (blocks : List BlockLink) (i : Nat) : String :=
  if i > 0 then
    match blocks.get? (i - 1) with
    | some b => b.Hash
    | none => ""
  else genesisPrevHash

/-- One pass of the loop body of `Verify` for the block `b` at index `i`: `ok` lets the loop
go on, `error` is the returned error, `fault` the abort of `ed25519.Verify` on a public key
that is not 32 bytes long. -/
def checkBlock (P : Primitives) (blocks : List BlockLink) (i : Nat) (b : BlockLink) :
    Outcome VerifyError :=
  if b.PrevHash ≠ expectedPrev blocks i then .error (.block i .prevHashMismatch)
  else
    let link : BlockLink :=
      { Index := b.Index, PrevHash := b.PrevHash, EventHash := b.EventHash, Hash := "",
        Signature := "", SignerPublicKey := "" }
    let rebuilt := hashLink P link
    if b.Hash ≠ rebuilt then .error (.block i .hashMismatch)
    else
      match Base64.DecodeString b.SignerPublicKey with
      | none => .error (.block i .signerKeyDecode)
      | some pub =>
        match Base64.DecodeString b.Signature with
        | none => .error (.block i .signatureDecode)
        | some sig =>
          match Hex.DecodeString b.Hash with
          | none => .error (.block i .hashDecode)
          | some hashBytes =>
            if pub.length ≠ 32 then .fault
            else if !P.ed25519Verify pub hashBytes sig then .error (.block i .signatureFailed)
            else .ok

/-- The loop `for i, b := range c.Blocks`, leaving at the first pass that does not go on. -/
def verifyLoop (P : Primitives) (blocks : List BlockLink) :
    List (Nat × BlockLink) → Outcome VerifyError
  | [] => .ok
  | (i, b) :: rest =>
    match checkBlock P blocks i b with
    | .ok => verifyLoop P blocks rest
    | r => r

/-- The function `Verify`. -/
def Verify (P : Primitives) (c : Option IdentityChain) : Outcome VerifyError :=
  match c with
  | none => .error .chainNil
  | some c => verifyLoop P c.Blocks c.Blocks.enum

end Chain

/-! ## pkg/auth/policy.go -/

namespace Auth

/-- The struct `AuthContext`; `RiskLevel` is a string type. -/
structure AuthContext where
  LongPhrase : Bool
  EmailOTP : Bool
  TOTP : Bool
  Hardware : Bool
  Risk : String
deriving DecidableEq, Repr

def RiskNormal : String := "normal"

def RiskHigh : String := "high"

/-- The two errors of `ValidateRootAction`. -/
inductive PolicyError where
  | longPhraseRequired
  | insufficientFactors
deriving DecidableEq, Repr

/-- The value of `factorCount` after the three increments. -/
def factorCount (ctx : AuthContext) : Nat :=
  (if ctx.EmailOTP then 1 else 0) + (if ctx.TOTP then 1 else 0) + (if ctx.Hardware then 1 else 0)

/-- The function `ValidateRootAction`. -/
def ValidateRootAction (ctx : AuthContext) : Outcome PolicyError :=
  if !ctx.LongPhrase then .error .longPhraseRequired
  else
    let required := if ctx.Risk = RiskHigh then 3 else 2
    if factorCount ctx < required then .error .insufficientFactors
    else .ok

end Auth

/-! ## pkg/store/file_store.go -/

namespace Store

open Chain

/-- The errors of the store, one per `errors.New` or `fmt.Errorf` site; `notFound` is
`ErrNotFound`. -/
inductive StoreError where
  | chainNil
  | ownerRequired
  | alreadyExists (ownerID : String)
  | validChainRequired
  | notFound
  | mkdirStoreDir
  | marshalStore
  | writeTempStore
  | commitStore
deriving DecidableEq, Repr

/-- The map `map[string]*chain.IdentityChain` by its entries; a key is looked up from the front
and `mapSet` keeps one entry per key. -/
abbrev ChainMap := List (String × Option IdentityChain)

/-- The assignment `m[k] = v`. -/
def mapSet : ChainMap → String → Option IdentityChain → ChainMap
  | [], k, v => [(k, v)]
  | (k0, v0) :: rest, k, v => if k0 = k then (k, v) :: rest else (k0, v0) :: mapSet rest k v

/-- What the operating system answers to the calls of one `saveLocked`: `os.MkdirAll`,
`os.WriteFile` and `os.Rename`. -/
structure FsAnswers where
  mkdirOk : Bool
  writeOk : Bool
  renameOk : Bool
deriving DecidableEq, Repr

/-- The struct `FileStore` without its lock, with the document that stands under `path` on the
disk (`none` when there is no file). -/
structure FileStore where
  path : String
  chains : ChainMap
  disk : Option ChainMap
deriving DecidableEq, Repr

/-- `json.MarshalIndent(fileModel{Chains: s.chains})` returns no error: every chain in the map
has a `created_at` that `Time.MarshalJSON` can write. -/
def marshalOk (chains : ChainMap) : Bool :=
  chains.all fun entry =>
    match entry.2 with
    | some c => c.CreatedAt.marshalable
    | none => true

/-- The function `clone`: a copy of the struct with a fresh slice of the same blocks. -/
def clone (c : Option IdentityChain) : Option IdentityChain :=
  match c with
  | none => none
  | some c => some { c with Blocks := [] ++ c.Blocks }

/-- The method `saveLocked`: the document under `path` is replaced only by the final rename. -/
def saveLocked (fs : FsAnswers) (s : FileStore) : FileStore × Outcome StoreError :=
  if !fs.mkdirOk then (s, .error .mkdirStoreDir)
  else if !marshalOk s.chains then (s, .error .marshalStore)
  else if !fs.writeOk then (s, .error .writeTempStore)
  else if !fs.renameOk then (s, .error .commitStore)
  else ({ s with disk := some s.chains }, .ok)

/-- The method `FileStore.Create`. -/
def Create (fs : FsAnswers) (s : FileStore) (c : Option IdentityChain) :
    FileStore × Outcome StoreError :=
  match c with
  | none => (s, .error .chainNil)
  | some c =>
    if c.OwnerID = "" then (s, .error .ownerRequired)
    else
      match s.chains.lookup c.OwnerID with
      | some _ => (s, .error (.alreadyExists c.OwnerID))
      | none => saveLocked fs { s with chains := mapSet s.chains c.OwnerID (clone (some c)) }

/-- The method `FileStore.Get`. -/
def Get (s : FileStore) (ownerID : String) : Except StoreError (Option IdentityChain) :=
  match s.chains.lookup ownerID with
  | none => .error .notFound
  | some c => .ok (clone c)

/-- The method `FileStore.Update`. -/
def Update (fs : FsAnswers) (s : FileStore) (c : Option IdentityChain) :
    FileStore × Outcome StoreError :=
  match c with
  | none => (s, .error .validChainRequired)
  | some c =>
    if c.OwnerID = "" then (s, .error .validChainRequired)
    else
      match s.chains.lookup c.OwnerID with
      | none => (s, .error .notFound)
      | some _ => saveLocked fs { s with chains := mapSet s.chains c.OwnerID (clone (some c)) }

/-- The method `FileStore.List`; the order of a map iteration is not fixed, the entries are
given in the order of the model. -/
def List (s : FileStore) : Except StoreError (List (Option IdentityChain)) :=
  .ok (s.chains.map fun entry => clone entry.2)

end Store

/-! ## A small instance of the primitives, for evaluation on concrete inputs -/

namespace Example

/-- A stand-in digest: the low byte of every character. It is injective on ASCII text. -/
def sha256 (s : String) : Bytes := s.data.map fun ch => byteOf ch.toNat

/-- A stand-in signature scheme: the public half of a seed is the seed reversed, a signature is
the public half of the key followed by the message, and it verifies under that public key. -/
def primitives : Primitives where
  sha256 := sha256
  ed25519Sign := fun priv msg => priv.drop 32 ++ msg
  ed25519Verify := fun pub msg sig => decide (sig = pub ++ msg)
  ed25519PublicFromSeed := fun seed => seed.reverse
  jsonMarshalEvent := fun e => e.Type_ ++ e.ActorID

def seed : Bytes := List.replicate 32 7

def privateKey : Bytes := seed ++ seed.reverse

/-- Clock readings of 2024-05-17T12:00:00Z. -/
def clock : Clock := { now := ⟨63851544000, 0, 0⟩, unixNano := 5 }

def login : Chain.IdentityEvent :=
  { ID := "e1", Type_ := "login", Timestamp := ⟨63851540400, 0, 0⟩, ActorID := "u",
    Risk := "normal", Payload := [] }

end Example

/-! ## Vocabulary of the statements and example inputs -/

namespace Ed25519

/-- The private key `ed25519.NewKeyFromSeed` builds: the seed followed by the public key. -/
def NewKeyFromSeed (P : Primitives) (seed : Bytes) : Bytes := seed ++ P.ed25519PublicFromSeed seed

end Ed25519

/-- What the theorems assume of the signature scheme: a public key has 32 bytes, and a signature
made with a key from `NewKeyFromSeed` verifies under the public half of that key. -/
structure Primitives.Lawful (P : Primitives) : Prop where
  publicKeySize : ∀ seed : Bytes, seed.length = 32 → (P.ed25519PublicFromSeed seed).length = 32
  signVerify : ∀ seed msg : Bytes, seed.length = 32 →
    P.ed25519Verify (P.ed25519PublicFromSeed seed) msg
      (P.ed25519Sign (Ed25519.NewKeyFromSeed P seed) msg) = true

namespace Chain

/-- The digest `hashLink` writes in hex. -/
def linkDigest (P : Primitives) (index : Nat) (prevHash eventHash : String) : Bytes :=
  P.sha256 (toString index ++ "|" ++ prevHash ++ "|" ++ eventHash)

/-- The event after the two defaults of `AppendEvent`: the clock for a zero timestamp, then a
generated id for an empty one. -/
def completed (P : Primitives) (clk : Clock) (e : IdentityEvent) : IdentityEvent :=
  let e := if e.Timestamp.IsZero then { e with Timestamp := clk.now.UTC } else e
  if e.ID = "" then { e with ID := newEventID P clk.unixNano e } else e

/-- The value of `prevHash` in `AppendEvent`. -/
def lastHash (blocks : List BlockLink) : String :=
  match blocks.getLast? with
  | some last => last.Hash
  | none => genesisPrevHash

/-- The block a successful `AppendEvent` appends. -/
def newBlock (P : Primitives) (clk : Clock) (c : IdentityChain) (e : IdentityEvent)
    (signerPrivateKey : Bytes) : BlockLink :=
  let eh := Hex.EncodeToString (P.sha256 (P.jsonMarshalEvent (completed P clk e)))
  let digest := linkDigest P c.Blocks.length (lastHash c.Blocks) eh
  { Index := c.Blocks.length
    PrevHash := lastHash c.Blocks
    EventHash := eh
    Hash := Hex.EncodeToString digest
    Signature := Base64.EncodeToString (P.ed25519Sign signerPrivateKey digest)
    SignerPublicKey := Base64.EncodeToString (signerPrivateKey.drop 32) }

/-- The chain with block `i` replaced and everything else untouched. -/
def withBlock (c : IdentityChain) (i : Nat) (b : BlockLink) : IdentityChain :=
  { c with Blocks := c.Blocks.set i b }

/-- The decoded signer key of a block (empty when it does not decode). -/
def keyBytes (b : BlockLink) : Bytes := (Base64.DecodeString b.SignerPublicKey).getD []

/-- The decoded signature of a block (empty when it does not decode). -/
def signatureBytes (b : BlockLink) : Bytes := (Base64.DecodeString b.Signature).getD []

/-- The decoded hash of a block (empty when it does not decode). -/
def hashBytes (b : BlockLink) : Bytes := (Hex.DecodeString b.Hash).getD []

/-- A run of `AppendEvent` calls with one key on one chain, each call with its own clock
readings; the outcomes are listed in order. -/
def appendAll (P : Primitives) (sk : Bytes) :
    Option IdentityChain → List (Clock × IdentityEvent) →
      Option IdentityChain × List (Outcome AppendError)
  | c, [] => (c, [])
  | c, (clk, e) :: rest =>
    ((appendAll P sk (AppendEvent P clk c e sk).1 rest).1,
      (AppendEvent P clk c e sk).2 :: (appendAll P sk (AppendEvent P clk c e sk).1 rest).2)

/-- The timestamp that is serialised: the clock reading when the event carries none. -/
def stamp (clk : Clock) (e : IdentityEvent) : Time :=
  if e.Timestamp.IsZero then clk.now.UTC else e.Timestamp

end Chain

namespace Example

/-- A login dated 10000-01-01T00:00:00Z. -/
def lateLogin : Chain.IdentityEvent :=
  { ID := "e2", Type_ := "login", Timestamp := ⟨315537897600, 0, 0⟩, ActorID := "u",
    Risk := "normal", Payload := [] }

/-- A login without timestamp and id. -/
def bareLogin : Chain.IdentityEvent :=
  { ID := "", Type_ := "login", Timestamp := ⟨0, 0, 0⟩, ActorID := "u",
    Risk := "high", Payload := [("ip", "127.0.0.1")] }

/-- An empty chain of owner `u` under the example key. -/
def emptyChain : Chain.IdentityChain :=
  Chain.NewIdentityChain clock.now "u" (primitives.ed25519PublicFromSeed seed)

/-- The example chain with one block: the dated login appended to the empty chain. -/
def oneBlockChain : Chain.IdentityChain :=
  { emptyChain with
    Blocks := [Chain.newBlock primitives clock emptyChain login
      (Ed25519.NewKeyFromSeed primitives seed)] }

/-- The block of `oneBlockChain`. -/
def firstBlock : Chain.BlockLink :=
  Chain.newBlock primitives clock emptyChain login (Ed25519.NewKeyFromSeed primitives seed)

end Example

namespace Auth

/-- The number of true flags among `email_otp`, `totp` and `hardware`. -/
def secondaryFactors (ctx : AuthContext) : Nat :=
  ([ctx.EmailOTP, ctx.TOTP, ctx.Hardware].filter fun flag => flag).length

end Auth

namespace Example

/-- A second seed and its key, foreign to the example chains. -/
def otherSeed : Bytes := List.replicate 32 9

def otherKey : Bytes := Ed25519.NewKeyFromSeed primitives otherSeed

end Example

namespace Chain

/-- The digest does not collide on the links of the chain: two blocks with the same link hash
have the same index, previous hash and event hash. -/
def CollisionFree (P : Primitives) (blocks : List BlockLink) : Prop :=
  ∀ x ∈ blocks, ∀ y ∈ blocks, hashLink P x = hashLink P y →
    x.Index = y.Index ∧ x.PrevHash = y.PrevHash ∧ x.EventHash = y.EventHash

instance (P : Primitives) (blocks : List BlockLink) : Decidable (CollisionFree P blocks) := by
  unfold CollisionFree
  infer_instance

/-- The chain with the blocks at positions `i` and `j` exchanged. -/
def swapBlocks (c : IdentityChain) (i j : Nat) : IdentityChain :=
  match c.Blocks[i]?, c.Blocks[j]? with
  | some bi, some bj => { c with Blocks := (c.Blocks.set i bj).set j bi }
  | _, _ => c

end Chain

namespace Example

/-- The example chain with two blocks: the bare login appended to `oneBlockChain`. -/
def twoBlockChain : Chain.IdentityChain :=
  { oneBlockChain with
    Blocks := oneBlockChain.Blocks ++ [Chain.newBlock primitives clock oneBlockChain bareLogin
      (Ed25519.NewKeyFromSeed primitives seed)] }

end Example

namespace Chain

/-- A chain of one block that is linked and hashed as `Verify` expects, with an empty signature
and the signer key text `AAAA`, which is valid base64 for three zero bytes. -/
def shortKeyChain (P : Primitives) : IdentityChain :=
  { OwnerID := "u"
    RootPublicKey := "AAAA"
    CreatedAt := ⟨63851544000, 0, 0⟩
    Blocks := [⟨0, "GENESIS", "", hashLink P ⟨0, "GENESIS", "", "", "", ""⟩, "", "AAAA"⟩] }

end Chain

namespace Store

open Chain

/-- A chain for owner `u` that differs from `Example.emptyChain` in its root key. -/
def rivalChain : IdentityChain :=
  NewIdentityChain Example.clock.now "u" Example.otherSeed.reverse

/-- A store without entries and without a file. -/
def emptyStore : FileStore := { path := "data/chains.json", chains := [], disk := none }

end Store

namespace Store

/-- A chain without owner id, as a caller can pass it to `Update`. -/
def namelessChain : Chain.IdentityChain :=
  Chain.NewIdentityChain Example.clock.now "" Example.seed.reverse

end Store

/-- The owners of the store: the keys of the map, in the order of the model. -/
def storeOwners (s : Store.FileStore) : List String := s.chains.map Prod.fst

/-- The listing has one chain per owner: the owners are pairwise different and the listing
gives, owner by owner, the chain `Get` returns for that owner. -/
def ListsOnePerOwner (s : Store.FileStore) : Prop :=
  (storeOwners s).Nodup ∧
    ∃ l, Store.List s = .ok l ∧
      List.Forall₂ (fun k v => Store.Get s k = .ok v) (storeOwners s) l

namespace Store

/-- The store after the one-block example chain was created under owner `u`. -/
def storeWithOneBlock : FileStore :=
  (Create ⟨true, true, true⟩ emptyStore (some Example.oneBlockChain)).1

end Store

/-- One call on the store, with what the operating system answers to it. -/
inductive StoreOp where
  | create (fs : Store.FsAnswers) (c : Option Chain.IdentityChain)
  | update (fs : Store.FsAnswers) (c : Option Chain.IdentityChain)
  | get (ownerID : String)
  | list

/-- The chain a call passes to the store, if any. -/
def StoreOp.supplied : StoreOp → Option Chain.IdentityChain
  | .create _ c => c
  | .update _ c => c
  | .get _ => none
  | .list => none

/-- The store after one call. -/
def stepStore (s : Store.FileStore) : StoreOp → Store.FileStore
  | .create fs c => (Store.Create fs s c).1
  | .update fs c => (Store.Update fs s c).1
  | .get _ => s
  | .list => s

/-- The store after a sequence of calls. -/
def runStore (s : Store.FileStore) (ops : List StoreOp) : Store.FileStore :=
  ops.foldl stepStore s

namespace Example

/-- The chain of `TestCreateGetUpdate`: the empty chain with the block
`BlockLink{Index: 0, PrevHash: "GENESIS"}` appended by hand. -/
def handMadeChain : Chain.IdentityChain :=
  { emptyChain with Blocks := [⟨0, "GENESIS", "", "", "", ""⟩] }

end Example

namespace Chain

/-- A block hashed and signed the way `AppendEvent` does it, at an index of the signer's
choice. -/
def signedBlock (P : Primitives) (index : Nat) (prevHash eventHash : String) (sk : Bytes) :
    BlockLink :=
  { Index := index
    PrevHash := prevHash
    EventHash := eventHash
    Hash := Hex.EncodeToString (linkDigest P index prevHash eventHash)
    Signature := Base64.EncodeToString (P.ed25519Sign sk (linkDigest P index prevHash eventHash))
    SignerPublicKey := Base64.EncodeToString (sk.drop 32) }

/-- A run of `AppendEvent` calls on one chain, each call with its own clock readings, event and
key; the chain behind the pointer after the last call. -/
def appendCalls (P : Primitives) :
    Option IdentityChain → List (Clock × IdentityEvent × Bytes) → Option IdentityChain
  | c, [] => c
  | c, (clk, e, sk) :: rest => appendCalls P (AppendEvent P clk c e sk).1 rest

/-- The structural invariants of the data model for one chain: at every position `i` the block
has index `i`, the first block points to `GENESIS` and every later block to the hash of the
block before it, the hash is the link hash of the block's own fields, and the signer key is the
chain's root key. -/
def StructurallySound (P : Primitives) (c : IdentityChain) : Prop :=
  ∀ (i : Nat) (b : BlockLink), c.Blocks[i]? = some b →
    b.Index = i
      ∧ (i = 0 → b.PrevHash = "GENESIS")
      ∧ (∀ p : BlockLink, 0 < i → c.Blocks[i - 1]? = some p → b.PrevHash = p.Hash)
      ∧ b.Hash = hashLink P b
      ∧ b.SignerPublicKey = c.RootPublicKey

end Chain

namespace Example

/-- The one-block example chain with the root key of another key pair written over its own. -/
def foreignRootChain : Chain.IdentityChain :=
  { oneBlockChain with RootPublicKey := Base64.EncodeToString otherSeed.reverse }

/-- A chain whose only block carries index 5 and is hashed and signed with the example key. -/
def skewedChain : Chain.IdentityChain :=
  { emptyChain with
    Blocks := [Chain.signedBlock primitives 5 "GENESIS" "" (Ed25519.NewKeyFromSeed primitives seed)] }

/-- A second block that is linked to the first example block and hashed as `Verify` expects,
with an empty signature and the signer key text `AAAA` (three zero bytes). -/
def shortKeyBlock : Chain.BlockLink :=
  ⟨1, firstBlock.Hash, "", Chain.hashLink primitives ⟨1, firstBlock.Hash, "", "", "", ""⟩, "",
    "AAAA"⟩

/-- The one-block example chain followed by `shortKeyBlock`. -/
def shortKeyTailChain : Chain.IdentityChain :=
  { oneBlockChain with Blocks := oneBlockChain.Blocks ++ [shortKeyBlock] }

/-- A private key of 40 bytes. -/
def paddedKey : Bytes := List.replicate 40 7

/-- An empty chain whose root key is what `PrivateKey.Public` derives from `paddedKey`: its
last eight bytes followed by zeros. -/
def paddedRootChain : Chain.IdentityChain :=
  Chain.NewIdentityChain clock.now "u" (List.replicate 8 7 ++ List.replicate 24 0)

end Example

namespace Chain

/-- The invariants in the form the induction uses: the previous hash is what the loop of
`Verify` expects at the position. -/
def SoundAt (P : Primitives) (c : IdentityChain) (i : Nat) (b : BlockLink) : Prop :=
  b.Index = i ∧ b.PrevHash = expectedPrev c.Blocks i ∧ b.Hash = hashLink P b
    ∧ b.SignerPublicKey = c.RootPublicKey

end Chain

/-! ## pkg/store/file_store.go with pointers and slices

The store of the section above works on chain values. Here the same methods work on Go's
memory: a `*chain.IdentityChain` is a position among the structs, a `[]chain.BlockLink` is a
header with a backing array, a start and a length, and a caller that holds a pointer can write through
it. Sharing of a struct or of a backing array between the caller and the store is visible in
this model. -/

namespace Mem

open Chain

/-- A slice header `[]BlockLink`: the backing array, the place in it where the slice starts, and
the length. The capacity is what the backing array holds from that place on. -/
structure Slice where
  array : Nat
  off : Nat
  len : Nat
deriving DecidableEq, Repr

/-- The struct `IdentityChain` as it lies in memory: three values and a slice header. -/
structure ChainCell where
  OwnerID : String
  RootPublicKey : String
  CreatedAt : Time
  Blocks : Slice
deriving DecidableEq, Repr

/-- The memory: the structs pointers point to and the backing arrays of the slices. A pointer and
an array reference are positions; an allocation adds at the end. -/
structure Memory where
  cells : List ChainCell
  arrays : List (List BlockLink)
deriving DecidableEq, Repr

/-- The contents of a backing array. -/
def backing (m : Memory) (a : Nat) : List BlockLink := (m.arrays[a]?).getD []

/-- The elements of a slice. -/
def readSlice (m : Memory) (sl : Slice) : List BlockLink :=
  ((backing m sl.array).drop sl.off).take sl.len

/-- The capacity of a slice, `cap(s)`. -/
def capacity (m : Memory) (sl : Slice) : Nat := (backing m sl.array).length - sl.off

/-- The chain value behind a pointer, `*p` with the elements of its slice. -/
def load (m : Memory) (p : Nat) : Option IdentityChain :=
  match m.cells[p]? with
  | none => none
  | some cell =>
    some { OwnerID := cell.OwnerID, RootPublicKey := cell.RootPublicKey,
           CreatedAt := cell.CreatedAt, Blocks := readSlice m cell.Blocks }

/-- The chain value behind a pointer that may be `nil`. -/
def loadPtr (m : Memory) (p : Option Nat) : Option IdentityChain := p.bind (load m)

/-- Every slice header points to a backing array of the memory. -/
def WellFormed (m : Memory) : Prop := ∀ cell ∈ m.cells, cell.Blocks.array < m.arrays.length

instance (m : Memory) : Decidable (WellFormed m) := by
  unfold WellFormed
  infer_instance

/-- The function `clone`: `dup := *c`, `dup.Blocks = append([]chain.BlockLink(nil), c.Blocks...)`,
`return &dup`. The elements go into a new backing array and the struct into a new place. Room
that Go may leave in the new array after the elements is left out: it is room of the new array
alone, and without it an `append` through the copy takes a new array at once. -/
def clone (m : Memory) (c : Option Nat) : Memory × Option Nat :=
  match c with
  | none => (m, none)
  | some p =>
    match m.cells[p]? with
    | none => (m, none)
    | some cell =>
      let dup : ChainCell :=
        { cell with Blocks := ⟨m.arrays.length, 0, (readSlice m cell.Blocks).length⟩ }
      ({ cells := m.cells ++ [dup], arrays := m.arrays ++ [readSlice m cell.Blocks] },
        some m.cells.length)

/-- The map `map[string]*chain.IdentityChain` by its entries. -/
abbrev PointerMap := List (String × Option Nat)

/-- The assignment `m[k] = v`. -/
def mapSet : PointerMap → String → Option Nat → PointerMap
  | [], k, v => [(k, v)]
  | (k0, v0) :: rest, k, v => if k0 = k then (k, v) :: rest else (k0, v0) :: mapSet rest k v

/-- The struct `FileStore` without its lock, with the document under `path` on the disk. -/
structure FileStore where
  path : String
  chains : PointerMap
  disk : Option Store.ChainMap
deriving DecidableEq, Repr

/-- What `json.MarshalIndent` reads: every key with the chain its pointer points to. -/
def document (m : Memory) (chains : PointerMap) : Store.ChainMap :=
  chains.map fun entry => (entry.1, loadPtr m entry.2)

/-- The method `saveLocked`. -/
def FileStore.saveLocked (fs : Store.FsAnswers) (m : Memory) (s : FileStore) :
    FileStore × Outcome Store.StoreError :=
  if !fs.mkdirOk then (s, .error .mkdirStoreDir)
  else if !Store.marshalOk (document m s.chains) then (s, .error .marshalStore)
  else if !fs.writeOk then (s, .error .writeTempStore)
  else if !fs.renameOk then (s, .error .commitStore)
  else ({ s with disk := some (document m s.chains) }, .ok)

/-- The method `FileStore.Create`: the memory and the store after the call, and how it ended. A
pointer that is neither `nil` nor a place of the memory does not occur in Go; the model
answers it with a fault. -/
def FileStore.Create (fs : Store.FsAnswers) (m : Memory) (s : FileStore) (c : Option Nat) :
    Memory × FileStore × Outcome Store.StoreError :=
  match c with
  | none => (m, s, .error .chainNil)
  | some p =>
    match m.cells[p]? with
    | none => (m, s, .fault)
    | some cell =>
      if cell.OwnerID = "" then (m, s, .error .ownerRequired)
      else
        match s.chains.lookup cell.OwnerID with
        | some _ => (m, s, .error (.alreadyExists cell.OwnerID))
        | none =>
          ((clone m (some p)).1,
            FileStore.saveLocked fs (clone m (some p)).1
              { s with chains := mapSet s.chains cell.OwnerID (clone m (some p)).2 })

/-- The method `FileStore.Get`: the memory after the call and the pointer or error returned. -/
def FileStore.Get (m : Memory) (s : FileStore) (ownerID : String) :
    Memory × Except Store.StoreError (Option Nat) :=
  match s.chains.lookup ownerID with
  | none => (m, .error .notFound)
  | some c => ((clone m c).1, .ok (clone m c).2)

/-- The method `FileStore.Update`. -/
def FileStore.Update (fs : Store.FsAnswers) (m : Memory) (s : FileStore) (c : Option Nat) :
    Memory × FileStore × Outcome Store.StoreError :=
  match c with
  | none => (m, s, .error .validChainRequired)
  | some p =>
    match m.cells[p]? with
    | none => (m, s, .fault)
    | some cell =>
      if cell.OwnerID = "" then (m, s, .error .validChainRequired)
      else
        match s.chains.lookup cell.OwnerID with
        | none => (m, s, .error .notFound)
        | some _ =>
          ((clone m (some p)).1,
            FileStore.saveLocked fs (clone m (some p)).1
              { s with chains := mapSet s.chains cell.OwnerID (clone m (some p)).2 })

/-- The loop of `FileStore.List`: one clone per entry, in the order of the model. -/
def cloneAll (m : Memory) : PointerMap → Memory × List (Option Nat)
  | [] => (m, [])
  | entry :: rest =>
    ((cloneAll (clone m entry.2).1 rest).1,
      (clone m entry.2).2 :: (cloneAll (clone m entry.2).1 rest).2)

/-- What a caller can write to a chain through a pointer `c` it holds: `c.OwnerID = v`,
`c.RootPublicKey = v`, `c.CreatedAt = t`, `c.Blocks[i] = b` and
`c.Blocks = append(c.Blocks, b)`. -/
inductive Write where
  | ownerID (v : String)
  | rootPublicKey (v : String)
  | createdAt (t : Time)
  | block (i : Nat) (b : BlockLink)
  | appendBlock (b : BlockLink)
deriving DecidableEq, Repr

/-- The memory after one write through the pointer `p`. An element is assigned in the backing
array, and an index outside the slice aborts the caller with nothing written; `append` writes
into the backing array when the slice has room after its length and into a new array
otherwise. -/
def write (m : Memory) (p : Nat) (w : Write) : Memory :=
  match m.cells[p]? with
  | none => m
  | some cell =>
    match w with
    | .ownerID v => { m with cells := m.cells.set p { cell with OwnerID := v } }
    | .rootPublicKey v => { m with cells := m.cells.set p { cell with RootPublicKey := v } }
    | .createdAt t => { m with cells := m.cells.set p { cell with CreatedAt := t } }
    | .block i b =>
      let arr := (backing m cell.Blocks.array).set (cell.Blocks.off + i) b
      if i < cell.Blocks.len then { m with arrays := m.arrays.set cell.Blocks.array arr }
      else m
    | .appendBlock b =>
      let inPlace : ChainCell :=
        { cell with Blocks := ⟨cell.Blocks.array, cell.Blocks.off, cell.Blocks.len + 1⟩ }
      let moved : ChainCell := { cell with Blocks := ⟨m.arrays.length, 0, cell.Blocks.len + 1⟩ }
      let arr := (backing m cell.Blocks.array).set (cell.Blocks.off + cell.Blocks.len) b
      if cell.Blocks.len < capacity m cell.Blocks then
        { cells := m.cells.set p inPlace, arrays := m.arrays.set cell.Blocks.array arr }
      else
        { cells := m.cells.set p moved, arrays := m.arrays ++ [readSlice m cell.Blocks ++ [b]] }

/-- The memory after `p.Blocks = src.Blocks[lo:hi]`, with `p` and `src` pointers that may be the
same: the slice of `p` gets the backing array of the slice of `src`. Bounds outside
`lo ≤ hi ≤ cap` abort the caller with nothing written. -/
def reslice (m : Memory) (p src lo hi : Nat) : Memory :=
  match m.cells[p]?, m.cells[src]? with
  | some cell, some other =>
    let shared : ChainCell :=
      { cell with Blocks := ⟨other.Blocks.array, other.Blocks.off + lo, hi - lo⟩ }
    if lo ≤ hi ∧ hi ≤ capacity m other.Blocks then { m with cells := m.cells.set p shared }
    else m
  | _, _ => m

/-- A caller's chain put into memory: the blocks in a new backing array, the struct in a new
place; the pointer is the second component. -/
def alloc (m : Memory) (v : IdentityChain) : Memory × Nat :=
  let cell : ChainCell :=
    { OwnerID := v.OwnerID, RootPublicKey := v.RootPublicKey, CreatedAt := v.CreatedAt,
      Blocks := ⟨m.arrays.length, 0, v.Blocks.length⟩ }
  ({ cells := m.cells ++ [cell], arrays := m.arrays ++ [v.Blocks] }, m.cells.length)

/-- The method `FileStore.List`. -/
def FileStore.List (m : Memory) (s : FileStore) :
    Memory × Except Store.StoreError (List (Option Nat)) :=
  ((cloneAll m s.chains).1, .ok (cloneAll m s.chains).2)

end Mem

namespace Mem

open Chain

/-- Every pointer in the map of the store is a place of the memory. -/
def Sound (m : Memory) (s : FileStore) : Prop :=
  ∀ entry ∈ s.chains, ∀ p, entry.2 = some p → p < m.cells.length

instance (m : Memory) (s : FileStore) : Decidable (Sound m s) := by
  unfold Sound
  infer_instance

/-- The owners of the store: the keys of the map, in the order of the model. -/
def owners (s : FileStore) : List String := s.chains.map Prod.fst

/-- The chain value behind the pointer `Get` returns, or the error of `Get`. -/
def getValue (m : Memory) (s : FileStore) (ownerID : String) :
    Except Store.StoreError (Option IdentityChain) :=
  match (FileStore.Get m s ownerID).2 with
  | .ok p => .ok (loadPtr (FileStore.Get m s ownerID).1 p)
  | .error err => .error err

/-- The chain values behind the pointers `List` returns. -/
def listValues (m : Memory) (s : FileStore) :
    Except Store.StoreError (List (Option IdentityChain)) :=
  match (FileStore.List m s).2 with
  | .ok l => .ok (l.map (loadPtr (FileStore.List m s).1))
  | .error err => .error err

/-- The listing has one chain per owner: the owners are pairwise different and the listing
gives, owner by owner, a chain equal to the one `Get` returns for that owner. -/
def ListsOnePerOwner (m : Memory) (s : FileStore) : Prop :=
  (owners s).Nodup ∧
    ∃ l, listValues m s = .ok l ∧
      List.Forall₂ (fun k v => getValue m s k = .ok v) (owners s) l

/-- What the caller of the store does after a call. It writes through one of the pointers it
holds, named by its position among them; it gives the chain behind one of them a slice of the
blocks of another, `c_i.Blocks = c_j.Blocks[lo:hi]`; it builds a chain of its own; or it reads
the store and holds what it is given. -/
inductive Step where
  | write (i : Nat) (w : Write)
  | reslice (i j lo hi : Nat)
  | build (v : IdentityChain)
  | get (ownerID : String)
  | list
deriving DecidableEq, Repr

/-- The pointer a call of `Get` hands to the caller, when it hands one that is not `nil`. -/
def kept : Except Store.StoreError (Option Nat) → List Nat
  | .ok (some g) => [g]
  | .ok none => []
  | .error _ => []

/-- The pointers a call of `List` hands to the caller, those that are not `nil`. -/
def keptAll : Except Store.StoreError (List (Option Nat)) → List Nat
  | .ok ps => ps.filterMap id
  | .error _ => []

/-- One step of the caller on the memory `st.1` with the pointers `st.2` in its hands: the memory
and the pointers after the step. The store itself is not written by `Get` and `List`. -/
def step (s : FileStore) (st : Memory × List Nat) : Step → Memory × List Nat
  | .write i w =>
    match st.2[i]? with
    | none => st
    | some p => (write st.1 p w, st.2)
  | .reslice i j lo hi =>
    match st.2[i]?, st.2[j]? with
    | some p, some src => (reslice st.1 p src lo hi, st.2)
    | _, _ => st
  | .build v => ((alloc st.1 v).1, st.2 ++ [(alloc st.1 v).2])
  | .get ownerID =>
    ((FileStore.Get st.1 s ownerID).1, st.2 ++ kept (FileStore.Get st.1 s ownerID).2)
  | .list => ((FileStore.List st.1 s).1, st.2 ++ keptAll (FileStore.List st.1 s).2)

/-- A sequence of steps of the caller. -/
def run (s : FileStore) (st : Memory × List Nat) (steps : List Step) : Memory × List Nat :=
  steps.foldl (step s) st

/-- Read after write, with the pointers `held` in the caller's hands: whatever the caller then
does, writing through the pointers it holds and through every copy that `Get` and `List` hand
to it in between, `Get` returns a chain equal to `v`. Without steps this is the plain read
after the write. The steps are those of one caller after another; the lock of the store orders
the calls. -/
def ReadsBack (m : Memory) (s : FileStore) (held : List Nat) (v : IdentityChain) : Prop :=
  ∀ steps : List Step, getValue (run s (m, held) steps).1 s v.OwnerID = .ok (some v)

/-- The struct at `q` has the backing array `arr` to itself: no other struct has a slice on
it. -/
def Guarded (m : Memory) (q : Nat) (cq : ChainCell) (arr : List BlockLink) : Prop :=
  m.cells[q]? = some cq ∧ m.arrays[cq.Blocks.array]? = some arr
    ∧ ∀ p cp, p ≠ q → m.cells[p]? = some cp → cp.Blocks.array ≠ cq.Blocks.array

/-- The memory in which a caller built the one-block example chain, behind the pointer `0`. -/
def callerMemory : Memory := (alloc ⟨[], []⟩ Example.oneBlockChain).1

/-- The memory and the store after the caller created that chain in a store without entries. -/
def afterCreate : Memory × FileStore × Outcome Store.StoreError :=
  FileStore.Create ⟨true, true, true⟩ callerMemory ⟨"data/chains.json", [], none⟩ (some 0)

/-- The second block of `Example.twoBlockChain`. -/
def secondBlock : BlockLink :=
  Chain.newBlock Example.primitives Example.clock Example.oneBlockChain Example.bareLogin
    (Ed25519.NewKeyFromSeed Example.primitives Example.seed)

/-- The store of the example: one entry, for owner `u`, with the one-block chain. -/
def exampleStore : FileStore := afterCreate.2.1

/-- The memory of the example: after the creation the caller read the chain back, which gave it
the copy behind the pointer `2`, and appended the second block to its own chain behind `0`. -/
def exampleMemory : Memory :=
  write (FileStore.Get afterCreate.1 exampleStore "u").1 0 (.appendBlock secondBlock)

/-- A block that no example chain has. -/
def forgedBlock : BlockLink := ⟨7, "x", "y", "z", "", ""⟩

/-- Steps of a caller that holds its own chain and an earlier copy: it overwrites the first block
of its chain and renames it, reads the store, cuts the earlier copy to no blocks, appends to the
copy it was just given and overwrites a block of it, lists the store and clears the root key of
the chain it is given, builds a chain of its own, makes the blocks of that chain a slice of the
blocks of the copy, and writes through that slice. -/
def exampleSteps : List Step :=
  [.write 0 (.block 0 forgedBlock), .write 0 (.ownerID "v"), .get "u", .reslice 1 1 0 0,
    .write 2 (.appendBlock forgedBlock), .write 2 (.block 1 forgedBlock), .list,
    .write 3 (.rootPublicKey ""), .build Example.emptyChain, .reslice 4 2 1 3,
    .write 4 (.block 0 forgedBlock)]

end Mem

namespace Example

/-- The dated login with its timestamp in a location 24 hours east of UTC, as
`time.FixedZone` builds one: the year is 2024 and the zone hour is 24. -/
def zonedLogin : Chain.IdentityEvent := { login with Timestamp := ⟨63851540400, 0, 86400⟩ }

/-- A login at 9999-12-31T20:00:00Z in a location five hours east of UTC, where the wall clock
shows 10000-01-01T01:00:00+05:00. -/
def eastLogin : Chain.IdentityEvent := { login with Timestamp := ⟨315537883200, 0, 18000⟩ }

/-- A login at 10000-01-01T00:00:00Z in a location five hours west of UTC, where the wall clock
shows 9999-12-31T19:00:00-05:00. -/
def westLogin : Chain.IdentityEvent := { login with Timestamp := ⟨315537897600, 0, -18000⟩ }

end Example

namespace Mem

/-- The memory and the store after the caller of the example updated the store with its chain of
two blocks. -/
def afterUpdate : Memory × FileStore × Outcome Store.StoreError :=
  FileStore.Update ⟨true, true, true⟩ exampleMemory exampleStore (some 0)

end Mem

/-! ## Facts about the encodings -/

namespace Hex

theorem fromHexChar_hexDigit : ∀ n : Fin 16, fromHexChar (hexDigit n.val) = some n.val := by
  decide

theorem byteOf_split (v : Byte) : byteOf (v.val / 16 * 16 + v.val % 16) = v := by
  apply Fin.ext
  have h := v.isLt
  simp only [byteOf]
  omega

theorem decodeChars_encodeChars (bs : Bytes) : decodeChars (encodeChars bs) = some bs := by
  induction bs with
  | nil => rfl
  | cons v rest ih =>
    have h1 := fromHexChar_hexDigit ⟨v.val / 16, by have := v.isLt; omega⟩
    have h2 := fromHexChar_hexDigit ⟨v.val % 16, by omega⟩
    show decodeChars (hexDigit (v.val / 16) :: hexDigit (v.val % 16) :: encodeChars rest) = _
    simp only [decodeChars, h1, h2, ih, byteOf_split]

/-- Decoding undoes encoding. -/
theorem hexDecode_encode (bs : Bytes) :
    DecodeString (EncodeToString bs) = some bs := by
  simp only [DecodeString, EncodeToString, decodeChars_encodeChars]

theorem length_encodeChars (bs : Bytes) : (encodeChars bs).length = 2 * bs.length := by
  induction bs with
  | nil => rfl
  | cons v rest ih =>
    simp only [encodeChars, encodeByte, List.cons_append, List.nil_append, List.length_cons, ih]
    omega

/-- A hex text is never the genesis sentinel: its length is even. -/
theorem EncodeToString_ne_genesis (bs : Bytes) : EncodeToString bs ≠ "GENESIS" := by
  intro h
  have h2 : (encodeChars bs).length = 7 := by
    have := congrArg String.length h
    simpa [EncodeToString] using this
  rw [length_encodeChars] at h2
  omega

end Hex

namespace Base64

theorem decodeMap_encodeSym : ∀ n : Fin 64, decodeMap (encodeSym n.val) = some n.val := by
  decide

theorem decodeMap_sym (n : Nat) (h : n < 64) : decodeMap (encodeSym n) = some n :=
  decodeMap_encodeSym ⟨n, h⟩

theorem decodeLoop_sym (c : Char) (v : Nat) (cs : List Char) (dbuf : List Nat) (out : Bytes)
    (hc : decodeMap c = some v) (hlen : dbuf.length ≠ 3) :
    decodeLoop (c :: cs) dbuf out = decodeLoop cs (dbuf ++ [v]) out := by
  simp only [decodeLoop, hc, hlen, if_false]

theorem decodeLoop_sym_last (c : Char) (v : Nat) (cs : List Char) (dbuf : List Nat) (out : Bytes)
    (hc : decodeMap c = some v) (hlen : dbuf.length = 3) :
    decodeLoop (c :: cs) dbuf out = decodeLoop cs [] (out ++ quantumBytes (dbuf ++ [v])) := by
  simp only [decodeLoop, hc, hlen, if_true]

theorem quantumBytes_three (a b c : Byte) :
    quantumBytes [(a.val * 65536 + b.val * 256 + c.val) / 262144 % 64,
      (a.val * 65536 + b.val * 256 + c.val) / 4096 % 64,
      (a.val * 65536 + b.val * 256 + c.val) / 64 % 64,
      (a.val * 65536 + b.val * 256 + c.val) % 64] = [a, b, c] := by
  have ha := a.isLt
  have hb := b.isLt
  have hc := c.isLt
  simp only [quantumBytes, quantumVal, List.getD_cons_zero, List.getD_cons_succ, List.length_cons,
    List.length_nil, byteOf]
  simp only [List.take, List.cons.injEq, and_true]
  refine ⟨?_, ?_, ?_⟩ <;> apply Fin.ext <;> simp only <;> omega

theorem quantumBytes_two (a b : Byte) :
    quantumBytes [(a.val * 65536 + b.val * 256) / 262144 % 64,
      (a.val * 65536 + b.val * 256) / 4096 % 64,
      (a.val * 65536 + b.val * 256) / 64 % 64] = [a, b] := by
  have ha := a.isLt
  have hb := b.isLt
  simp only [quantumBytes, quantumVal, List.getD_cons_zero, List.getD_cons_succ, List.length_cons,
    List.length_nil, byteOf, List.getD_nil]
  simp only [List.take, List.cons.injEq, and_true]
  refine ⟨?_, ?_⟩ <;> apply Fin.ext <;> simp only <;> omega

theorem quantumBytes_one (a : Byte) :
    quantumBytes [(a.val * 65536) / 262144 % 64, (a.val * 65536) / 4096 % 64] = [a] := by
  have ha := a.isLt
  simp only [quantumBytes, quantumVal, List.getD_cons_zero, List.getD_cons_succ, List.length_cons,
    List.length_nil, byteOf, List.getD_nil]
  simp only [List.take, List.cons.injEq, and_true]
  apply Fin.ext
  simp only
  omega

theorem decodeLoop_two (v0 v1 : Nat) (cs : List Char) (out : Bytes)
    (h0 : v0 < 64) (h1 : v1 < 64) :
    decodeLoop (encodeSym v0 :: encodeSym v1 :: cs) [] out = decodeLoop cs [v0, v1] out := by
  rw [decodeLoop_sym _ v0 _ [] _ (decodeMap_sym _ h0) (by decide)]
  exact decodeLoop_sym _ v1 _ [v0] _ (decodeMap_sym _ h1) (by simp)

theorem decodeLoop_three (v0 v1 v2 : Nat) (cs : List Char) (out : Bytes)
    (h0 : v0 < 64) (h1 : v1 < 64) (h2 : v2 < 64) :
    decodeLoop (encodeSym v0 :: encodeSym v1 :: encodeSym v2 :: cs) [] out
      = decodeLoop cs [v0, v1, v2] out := by
  rw [decodeLoop_two v0 v1 _ _ h0 h1]
  exact decodeLoop_sym _ v2 _ [v0, v1] _ (decodeMap_sym _ h2) (by simp)

theorem decodeLoop_four (v0 v1 v2 v3 : Nat) (cs : List Char) (out : Bytes)
    (h0 : v0 < 64) (h1 : v1 < 64) (h2 : v2 < 64) (h3 : v3 < 64) :
    decodeLoop (encodeSym v0 :: encodeSym v1 :: encodeSym v2 :: encodeSym v3 :: cs) [] out
      = decodeLoop cs [] (out ++ quantumBytes [v0, v1, v2, v3]) := by
  rw [decodeLoop_three v0 v1 v2 _ _ h0 h1 h2]
  exact decodeLoop_sym_last _ v3 _ [v0, v1, v2] _ (decodeMap_sym _ h3) rfl

theorem decodeLoop_pad_one (v0 v1 v2 : Nat) (out : Bytes) :
    decodeLoop [ '='] [v0, v1, v2] out = some (out ++ quantumBytes [v0, v1, v2]) := by
  have hpad : decodeMap '=' = none := by decide
  have hnl : isNewline '=' = false := by decide
  simp [decodeLoop, hpad, hnl, skipNewlines]

theorem decodeLoop_pad_two (v0 v1 : Nat) (out : Bytes) :
    decodeLoop [ '=', '='] [v0, v1] out = some (out ++ quantumBytes [v0, v1]) := by
  have hpad : decodeMap '=' = none := by decide
  have hnl : isNewline '=' = false := by decide
  simp [decodeLoop, hpad, hnl, skipNewlines]

theorem decodeLoop_encodeChars (bs : Bytes) :
    ∀ out : Bytes, decodeLoop (encodeChars bs) [] out = some (out ++ bs) := by
  induction bs using encodeChars.induct with
  | case1 a b c rest ih =>
    intro out
    simp only [encodeChars]
    rw [decodeLoop_four _ _ _ _ _ _ (Nat.mod_lt _ (by decide)) (Nat.mod_lt _ (by decide))
      (Nat.mod_lt _ (by decide)) (Nat.mod_lt _ (by decide)), quantumBytes_three, ih]
    simp only [List.append_assoc, List.cons_append, List.nil_append]
  | case2 a b =>
    intro out
    simp only [encodeChars]
    rw [decodeLoop_three _ _ _ _ _ (Nat.mod_lt _ (by decide)) (Nat.mod_lt _ (by decide))
      (Nat.mod_lt _ (by decide)), decodeLoop_pad_one, quantumBytes_two]
  | case3 a =>
    intro out
    simp only [encodeChars]
    rw [decodeLoop_two _ _ _ _ (Nat.mod_lt _ (by decide)) (Nat.mod_lt _ (by decide)),
      decodeLoop_pad_two, quantumBytes_one]
  | case4 =>
    intro out
    simp [encodeChars, decodeLoop]

/-- Decoding undoes encoding. -/
theorem base64Decode_encode (bs : Bytes) :
    DecodeString (EncodeToString bs) = some bs := by
  simp only [DecodeString, EncodeToString, decodeLoop_encodeChars, List.nil_append]

end Base64

namespace Base64

theorem skipNewlines_append_newline (cs : List Char) :
    skipNewlines (cs ++ [ '\n']) =
      match skipNewlines cs with
      | [] => []
      | d :: rest => d :: (rest ++ [ '\n']) := by
  induction cs with
  | nil => rfl
  | cons c cs ih =>
    by_cases h : isNewline c = true
    · simp only [List.cons_append, skipNewlines, h, if_true, List.append_eq, ih]
    · simp only [List.cons_append, skipNewlines, h, if_false, Bool.false_eq_true,
        List.append_eq]

theorem skipNewlines_append_newline_isEmpty (cs : List Char) :
    (skipNewlines (cs ++ [ '\n'])).isEmpty = (skipNewlines cs).isEmpty := by
  rw [skipNewlines_append_newline]
  cases skipNewlines cs <;> rfl

theorem decodeLoop_append_newline (cs : List Char) :
    ∀ (dbuf : List Nat) (out : Bytes),
      decodeLoop (cs ++ [ '\n']) dbuf out = decodeLoop cs dbuf out := by
  induction cs with
  | nil =>
    intro dbuf out
    have h1 : decodeMap '\n' = none := by decide
    have h2 : isNewline '\n' = true := by decide
    simp only [List.nil_append, decodeLoop, h1, h2, if_true]
  | cons c cs ih =>
    intro dbuf out
    simp only [List.cons_append, decodeLoop, List.append_eq, ih,
      skipNewlines_append_newline_isEmpty]
    cases hc : decodeMap c with
    | some v => rfl
    | none =>
      simp only
      rw [skipNewlines_append_newline]
      cases hs : skipNewlines cs with
      | nil => rfl
      | cons d rest => simp only [skipNewlines_append_newline_isEmpty]

/-- A trailing new line is ignored by the decoder. -/
theorem DecodeString_append_newline (s : String) :
    DecodeString (s ++ "\n") = DecodeString s := by
  have h : (s ++ "\n").data = s.data ++ [ '\n'] := by
    simp [String.data_append]
  simp only [DecodeString, h, decodeLoop_append_newline]

theorem append_newline_ne (s : String) : s ++ "\n" ≠ s := by
  intro h
  have := congrArg String.length h
  simp only [String.length_append] at this
  have h1 : "\n".length = 1 := by decide
  omega

end Base64

/-! ## Facts about `AppendEvent` -/

namespace Ed25519

theorem Public_of_length_64 (priv : Bytes) (h : priv.length = 64) :
    Public priv = some (priv.drop 32) := by
  have h1 : ¬ priv.length < 32 := by omega
  have h2 : (priv.drop 32).length = 32 := by simp [h]
  have h3 : (priv.drop 32).take 32 = priv.drop 32 := List.take_of_length_le (by omega)
  simp only [Public, h1, if_false, h3, h2, Nat.sub_self, List.replicate_zero, List.append_nil]

theorem length_NewKeyFromSeed (P : Primitives) (seed : Bytes) (hs : seed.length = 32)
    (hp : (P.ed25519PublicFromSeed seed).length = 32) : (NewKeyFromSeed P seed).length = 64 := by
  simp [NewKeyFromSeed, hs, hp]

theorem drop_NewKeyFromSeed (P : Primitives) (seed : Bytes) (hs : seed.length = 32) :
    (NewKeyFromSeed P seed).drop 32 = P.ed25519PublicFromSeed seed := by
  simp [NewKeyFromSeed, List.drop_append_eq_append_drop, hs]

end Ed25519

namespace Chain

theorem hashLink_eq (P : Primitives) (b : BlockLink) :
    hashLink P b = Hex.EncodeToString (linkDigest P b.Index b.PrevHash b.EventHash) := rfl

theorem completed_Timestamp (P : Primitives) (clk : Clock) (e : IdentityEvent) :
    (completed P clk e).Timestamp
      = if e.Timestamp.IsZero then clk.now.UTC else e.Timestamp := by
  unfold completed
  by_cases h1 : e.Timestamp.IsZero = true
  · simp only [h1, if_true]
    by_cases h2 : e.ID = "" <;> simp only [h2, if_true, if_false]
  · simp only [h1, if_false, Bool.false_eq_true]
    by_cases h2 : e.ID = "" <;> simp only [h2, if_true, if_false]

/-- The branches of `AppendEvent` for a 64-byte key, one after the other. -/
theorem AppendEvent_of_length_64 (P : Primitives) (clk : Clock) (c : IdentityChain)
    (e : IdentityEvent) (sk : Bytes) (hsk : sk.length = 64) :
    AppendEvent P clk (some c) e sk =
      if Base64.EncodeToString (sk.drop 32) ≠ c.RootPublicKey then (some c, .error .notRootOwner)
      else if e.Type_ = "" then (some c, .error .typeRequired)
      else if e.ActorID = "" then (some c, .error .actorRequired)
      else if (completed P clk e).Timestamp.marshalable = false then
        (some c, .error .marshalEvent)
      else (some { c with Blocks := c.Blocks ++ [newBlock P clk c e sk] }, .ok) := by
  have h0 : ¬ sk.length = 0 := by omega
  simp only [AppendEvent, h0, if_false, Ed25519.Public_of_length_64 sk hsk]
  by_cases h1 : Base64.EncodeToString (sk.drop 32) ≠ c.RootPublicKey
  · simp only [h1, if_true, ne_eq, not_false_eq_true]
  · simp only [h1, if_false]
    by_cases h2 : e.Type_ = ""
    · simp only [h2, if_true]
    · simp only [h2, if_false]
      by_cases h3 : e.ActorID = ""
      · simp only [h3, if_true]
      · simp only [h3, if_false]
        by_cases h4 : (completed P clk e).Timestamp.marshalable = false
        · have h4c := h4
          unfold completed at h4c
          simp only [hashEvent, h4c, h4, if_true, Bool.false_eq_true, if_false]
        · have h4t : (completed P clk e).Timestamp.marshalable = true := by
            simpa using h4
          have h4c := h4t
          unfold completed at h4c
          simp only [hashEvent, h4c, h4, if_true, if_false, hashLink_eq,
            Hex.hexDecode_encode, hsk, ne_eq, not_true_eq_false]
          rfl

end Chain

/-! ## Facts about `Verify` -/

namespace Chain

theorem verifyLoop_append (P : Primitives) (blocks : List BlockLink)
    (xs ys : List (Nat × BlockLink)) :
    verifyLoop P blocks (xs ++ ys) =
      match verifyLoop P blocks xs with
      | .ok => verifyLoop P blocks ys
      | r => r := by
  induction xs with
  | nil => rfl
  | cons p rest ih =>
    obtain ⟨i, b⟩ := p
    show verifyLoop P blocks ((i, b) :: (rest ++ ys)) = _
    simp only [verifyLoop]
    cases h : checkBlock P blocks i b <;> simp only [ih]

theorem verifyLoop_ok_iff (P : Primitives) (blocks : List BlockLink)
    (xs : List (Nat × BlockLink)) :
    verifyLoop P blocks xs = .ok ↔ ∀ p ∈ xs, checkBlock P blocks p.1 p.2 = .ok := by
  induction xs with
  | nil => simp [verifyLoop]
  | cons p rest ih =>
    obtain ⟨i, b⟩ := p
    simp only [verifyLoop, List.mem_cons, forall_eq_or_imp]
    cases h : checkBlock P blocks i b
    · simp only [ih, true_and]
    · simp
    · simp

theorem expectedPrev_append_left (l r : List BlockLink) (i : Nat) (h : i ≤ l.length) :
    expectedPrev (l ++ r) i = expectedPrev l i := by
  unfold expectedPrev
  by_cases hi : i > 0
  · simp only [hi, if_true]
    have : i - 1 < l.length := by omega
    simp only [List.get?_eq_getElem?, List.getElem?_append_left this]
  · simp only [hi, if_false]

theorem expectedPrev_length (l : List BlockLink) : expectedPrev l l.length = lastHash l := by
  unfold expectedPrev lastHash
  cases l with
  | nil => rfl
  | cons a t =>
    have hlt : t.length < (a :: t).length := by simp
    simp only [List.length_cons, gt_iff_lt, Nat.zero_lt_succ, if_true, List.get?_eq_getElem?,
      List.getLast?_eq_getElem?, Nat.add_sub_cancel, List.getElem?_eq_getElem hlt]

theorem checkBlock_congr (P : Primitives) (blocks blocks2 : List BlockLink) (i : Nat)
    (b : BlockLink) (h : expectedPrev blocks i = expectedPrev blocks2 i) :
    checkBlock P blocks i b = checkBlock P blocks2 i b := by
  simp only [checkBlock, h]

theorem mem_enum_lt (l : List BlockLink) (p : Nat × BlockLink) (h : p ∈ l.enum) :
    p.1 < l.length := by
  obtain ⟨i, b⟩ := p
  have := List.mem_enum_iff_getElem?.mp h
  have h2 := List.getElem?_eq_some.mp this
  exact h2.1

/-- A chain that verifies still verifies after one more block that passes its own check. -/
theorem verifyLoop_snoc (P : Primitives) (l : List BlockLink) (b : BlockLink)
    (hl : verifyLoop P l l.enum = .ok) (hb : checkBlock P l l.length b = .ok) :
    verifyLoop P (l ++ [b]) (l ++ [b]).enum = .ok := by
  rw [verifyLoop_ok_iff] at hl ⊢
  intro p hp
  rw [List.enum_append] at hp
  rcases List.mem_append.mp hp with hp | hp
  · rw [checkBlock_congr P (l ++ [b]) l p.1 p.2
      (expectedPrev_append_left l [b] p.1 (Nat.le_of_lt (mem_enum_lt l p hp)))]
    exact hl p hp
  · simp only [List.enumFrom_singleton, List.mem_singleton] at hp
    subst hp
    rw [checkBlock_congr P (l ++ [b]) l l.length b
      (expectedPrev_append_left l [b] l.length (Nat.le_refl _))]
    exact hb

/-- The block a successful append makes passes its check when the key came from
`NewKeyFromSeed`. -/
theorem checkBlock_newBlock (P : Primitives) (hP : P.Lawful) (clk : Clock) (c : IdentityChain)
    (e : IdentityEvent) (seed : Bytes) (hs : seed.length = 32) :
    checkBlock P c.Blocks c.Blocks.length
      (newBlock P clk c e (Ed25519.NewKeyFromSeed P seed)) = .ok := by
  have hpk := hP.publicKeySize seed hs
  have hsv := hP.signVerify seed
    (linkDigest P c.Blocks.length (lastHash c.Blocks)
      (Hex.EncodeToString (P.sha256 (P.jsonMarshalEvent (completed P clk e))))) hs
  simp only [checkBlock, newBlock, expectedPrev_length, hashLink_eq, ne_eq, not_true_eq_false,
    if_false, Base64.base64Decode_encode, Hex.hexDecode_encode,
    Ed25519.drop_NewKeyFromSeed P seed hs, hpk, hsv, Bool.not_true, Bool.false_eq_true]

end Chain

/-! ## The first failure decides `Verify` -/

namespace Chain

theorem verifyLoop_enumFrom_first (P : Primitives) (blocks : List BlockLink) :
    ∀ (l : List BlockLink) (n i : Nat) (b : BlockLink), l[i]? = some b →
      (∀ k < i, ∀ x, l[k]? = some x → checkBlock P blocks (n + k) x = .ok) →
      checkBlock P blocks (n + i) b ≠ .ok →
      verifyLoop P blocks (l.enumFrom n) = checkBlock P blocks (n + i) b := by
  intro l
  induction l with
  | nil =>
    intro n i b hb
    simp at hb
  | cons a t ih =>
    intro n i b hb hbefore hfail
    cases i with
    | zero =>
      simp only [List.getElem?_cons_zero, Option.some.injEq] at hb
      subst hb
      simp only [Nat.add_zero] at hfail ⊢
      show (match checkBlock P blocks n a with
        | .ok => verifyLoop P blocks (t.enumFrom (n + 1))
        | r => r) = checkBlock P blocks n a
      cases h : checkBlock P blocks n a
      · exact absurd h hfail
      · rfl
      · rfl
    | succ j =>
      have h0 : checkBlock P blocks n a = .ok := by
        have := hbefore 0 (Nat.succ_pos j) a (by simp)
        simpa using this
      simp only [List.getElem?_cons_succ] at hb
      simp only [List.enumFrom_cons, verifyLoop, h0]
      have hidx : n + (j + 1) = n + 1 + j := by omega
      rw [hidx] at hfail ⊢
      apply ih (n + 1) j b hb _ hfail
      intro k hk x hx
      have := hbefore (k + 1) (by omega) x (by simpa using hx)
      have hidx2 : n + (k + 1) = n + 1 + k := by omega
      rw [hidx2] at this
      exact this

/-- The loop returns what the first block that fails to pass returns. -/
theorem verifyLoop_first (P : Primitives) (blocks : List BlockLink) (i : Nat) (b : BlockLink)
    (hb : blocks[i]? = some b)
    (hbefore : ∀ k < i, ∀ x, blocks[k]? = some x → checkBlock P blocks k x = .ok)
    (hfail : checkBlock P blocks i b ≠ .ok) :
    verifyLoop P blocks blocks.enum = checkBlock P blocks i b := by
  have h := verifyLoop_enumFrom_first P blocks blocks 0 i b hb
    (by simpa using hbefore) (by simpa using hfail)
  simpa [List.enum_eq_enumFrom] using h

/-- The loop returns `nil` exactly when every block passes. -/
theorem verifyLoop_ok_iff_getElem (P : Primitives) (blocks : List BlockLink) :
    verifyLoop P blocks blocks.enum = .ok ↔
      ∀ k x, blocks[k]? = some x → checkBlock P blocks k x = .ok := by
  rw [verifyLoop_ok_iff]
  constructor
  · intro h k x hx
    exact h (k, x) (List.mk_mem_enum_iff_getElem?.mpr hx)
  · intro h p hp
    exact h p.1 p.2 (List.mem_enum_iff_getElem?.mp hp)

theorem expectedPrev_set_le (blocks : List BlockLink) (i k : Nat) (b : BlockLink)
    (hk : k ≤ i) : expectedPrev (blocks.set i b) k = expectedPrev blocks k := by
  unfold expectedPrev
  by_cases h0 : k > 0
  · have hne : i ≠ k - 1 := by omega
    simp only [h0, if_true, List.get?_eq_getElem?, List.getElem?_set_ne hne]
  · simp only [h0, if_false]

theorem expectedPrev_set_same_hash (blocks : List BlockLink) (i k : Nat) (b b2 : BlockLink)
    (hb : blocks[i]? = some b) (hh : b2.Hash = b.Hash) :
    expectedPrev (blocks.set i b2) k = expectedPrev blocks k := by
  unfold expectedPrev
  by_cases h0 : k > 0
  · simp only [h0, if_true, List.get?_eq_getElem?]
    by_cases hik : i = k - 1
    · subst hik
      have hlt := (List.getElem?_eq_some.mp hb).1
      simp only [List.getElem?_set_self hlt, hb, hh]
    · simp only [List.getElem?_set_ne hik]
  · simp only [h0, if_false]

/-- Replacing block `i` by a block that does not pass makes `Verify` return what that block
returns at index `i`. -/
theorem verifyLoop_set_fail (P : Primitives) (blocks : List BlockLink) (i : Nat)
    (b b2 : BlockLink) (hv : verifyLoop P blocks blocks.enum = .ok) (hb : blocks[i]? = some b)
    (hfail : checkBlock P blocks i b2 ≠ .ok) :
    verifyLoop P (blocks.set i b2) (blocks.set i b2).enum = checkBlock P blocks i b2 := by
  have hlt := (List.getElem?_eq_some.mp hb).1
  have hall := (verifyLoop_ok_iff_getElem P blocks).mp hv
  have hcb : checkBlock P (blocks.set i b2) i b2 = checkBlock P blocks i b2 :=
    checkBlock_congr P _ _ i b2 (expectedPrev_set_le blocks i i b2 (Nat.le_refl i))
  rw [← hcb] at hfail ⊢
  apply verifyLoop_first P (blocks.set i b2) i b2 (List.getElem?_set_self hlt) _ hfail
  intro k hk x hx
  have hne : i ≠ k := by omega
  rw [List.getElem?_set_ne hne] at hx
  rw [checkBlock_congr P _ _ k x (expectedPrev_set_le blocks i k b2 (Nat.le_of_lt hk))]
  exact hall k x hx

/-- Replacing block `i` by a block with the same hash that passes leaves `Verify` at `nil`. -/
theorem verifyLoop_set_pass (P : Primitives) (blocks : List BlockLink) (i : Nat)
    (b b2 : BlockLink) (hv : verifyLoop P blocks blocks.enum = .ok) (hb : blocks[i]? = some b)
    (hh : b2.Hash = b.Hash) (hpass : checkBlock P blocks i b2 = .ok) :
    verifyLoop P (blocks.set i b2) (blocks.set i b2).enum = .ok := by
  have hlt := (List.getElem?_eq_some.mp hb).1
  have hall := (verifyLoop_ok_iff_getElem P blocks).mp hv
  rw [verifyLoop_ok_iff_getElem]
  intro k x hx
  rw [checkBlock_congr P _ _ k x (expectedPrev_set_same_hash blocks i k b b2 hb hh)]
  by_cases hik : i = k
  · subst hik
    rw [List.getElem?_set_self hlt] at hx
    simp only [Option.some.injEq] at hx
    subst hx
    exact hpass
  · rw [List.getElem?_set_ne hik] at hx
    exact hall k x hx

end Chain

/-! ## What a passing block is -/

namespace Chain

theorem hashLink_congr (P : Primitives) (a b : BlockLink) (h1 : a.Index = b.Index)
    (h2 : a.PrevHash = b.PrevHash) (h3 : a.EventHash = b.EventHash) :
    hashLink P a = hashLink P b := by
  simp only [hashLink_eq, h1, h2, h3]

/-- The per-block checks of `Verify`, as a proposition: the block passes all of them. -/
theorem checkBlock_ok_iff (P : Primitives) (blocks : List BlockLink) (i : Nat) (b : BlockLink) :
    checkBlock P blocks i b = .ok ↔
      b.PrevHash = expectedPrev blocks i ∧ b.Hash = hashLink P b
        ∧ ∃ pub sig hb, Base64.DecodeString b.SignerPublicKey = some pub
          ∧ Base64.DecodeString b.Signature = some sig ∧ Hex.DecodeString b.Hash = some hb
          ∧ pub.length = 32 ∧ P.ed25519Verify pub hb sig = true := by
  have hl : hashLink P ⟨b.Index, b.PrevHash, b.EventHash, "", "", ""⟩ = hashLink P b := rfl
  unfold checkBlock
  simp only [hl]
  by_cases h1 : b.PrevHash = expectedPrev blocks i
  · by_cases h2 : b.Hash = hashLink P b
    · simp only [h1, h2.symm, ne_eq, not_true_eq_false, if_false, true_and]
      cases hk : Base64.DecodeString b.SignerPublicKey with
      | none => simp
      | some pub =>
        cases hsg : Base64.DecodeString b.Signature with
        | none => simp
        | some sig =>
          cases hh : Hex.DecodeString b.Hash with
          | none => simp
          | some hb =>
            by_cases h3 : pub.length = 32
            · by_cases h4 : P.ed25519Verify pub hb sig = true
              · simp [h3, h4]
              · simp [h3, h4]
            · simp [h3]
    · simp [h1, h2]
  · simp [h1]

/-- A block whose linkage and hash are right and whose three texts decode, with a 32-byte key:
the signature check decides. -/
theorem checkBlock_of_decoded (P : Primitives) (blocks : List BlockLink) (i : Nat)
    (b : BlockLink) (pub sig hb : Bytes) (h1 : b.PrevHash = expectedPrev blocks i)
    (h2 : b.Hash = hashLink P b) (hk : Base64.DecodeString b.SignerPublicKey = some pub)
    (hsg : Base64.DecodeString b.Signature = some sig) (hh : Hex.DecodeString b.Hash = some hb)
    (h3 : pub.length = 32) :
    checkBlock P blocks i b =
      if P.ed25519Verify pub hb sig then .ok else .error (.block i .signatureFailed) := by
  have hl : hashLink P ⟨b.Index, b.PrevHash, b.EventHash, "", "", ""⟩ = hashLink P b := rfl
  unfold checkBlock
  simp only [hl]
  simp only [h1, h2.symm, ne_eq, not_true_eq_false, if_false, hk, hsg, hh, h3]
  by_cases h4 : P.ed25519Verify pub hb sig = true <;> simp [h4]

end Chain

namespace Chain

theorem checkBlock_prev_mismatch (P : Primitives) (blocks : List BlockLink) (i : Nat)
    (b : BlockLink) (h1 : b.PrevHash ≠ expectedPrev blocks i) :
    checkBlock P blocks i b = .error (.block i .prevHashMismatch) := by
  unfold checkBlock
  simp only [h1, ne_eq, not_false_eq_true, if_true]

theorem checkBlock_hash_mismatch (P : Primitives) (blocks : List BlockLink) (i : Nat)
    (b : BlockLink) (h1 : b.PrevHash = expectedPrev blocks i) (h2 : b.Hash ≠ hashLink P b) :
    checkBlock P blocks i b = .error (.block i .hashMismatch) := by
  have hl : hashLink P ⟨b.Index, b.PrevHash, b.EventHash, "", "", ""⟩ = hashLink P b := rfl
  unfold checkBlock
  simp only [hl]
  simp only [h1, h2, ne_eq, not_true_eq_false, not_false_eq_true, if_true, if_false]

theorem checkBlock_key_decode (P : Primitives) (blocks : List BlockLink) (i : Nat)
    (b : BlockLink) (h1 : b.PrevHash = expectedPrev blocks i) (h2 : b.Hash = hashLink P b)
    (hk : Base64.DecodeString b.SignerPublicKey = none) :
    checkBlock P blocks i b = .error (.block i .signerKeyDecode) := by
  have hl : hashLink P ⟨b.Index, b.PrevHash, b.EventHash, "", "", ""⟩ = hashLink P b := rfl
  unfold checkBlock
  simp only [hl]
  simp only [h1, h2.symm, ne_eq, not_true_eq_false, if_false, hk]

theorem checkBlock_signature_decode (P : Primitives) (blocks : List BlockLink) (i : Nat)
    (b : BlockLink) (pub : Bytes) (h1 : b.PrevHash = expectedPrev blocks i)
    (h2 : b.Hash = hashLink P b) (hk : Base64.DecodeString b.SignerPublicKey = some pub)
    (hsg : Base64.DecodeString b.Signature = none) :
    checkBlock P blocks i b = .error (.block i .signatureDecode) := by
  have hl : hashLink P ⟨b.Index, b.PrevHash, b.EventHash, "", "", ""⟩ = hashLink P b := rfl
  unfold checkBlock
  simp only [hl]
  simp only [h1, h2.symm, ne_eq, not_true_eq_false, if_false, hk, hsg]

theorem checkBlock_key_length (P : Primitives) (blocks : List BlockLink) (i : Nat)
    (b : BlockLink) (pub sig : Bytes) (h1 : b.PrevHash = expectedPrev blocks i)
    (h2 : b.Hash = hashLink P b) (hk : Base64.DecodeString b.SignerPublicKey = some pub)
    (hsg : Base64.DecodeString b.Signature = some sig) (h3 : pub.length ≠ 32) :
    checkBlock P blocks i b = .fault := by
  have hl : hashLink P ⟨b.Index, b.PrevHash, b.EventHash, "", "", ""⟩ = hashLink P b := rfl
  have hh : Hex.DecodeString b.Hash = some (linkDigest P b.Index b.PrevHash b.EventHash) := by
    rw [h2, hashLink_eq, Hex.hexDecode_encode]
  unfold checkBlock
  simp only [hl]
  simp only [h1, h2.symm, ne_eq, not_true_eq_false, if_false, hk, hsg, hh, h3,
    not_false_eq_true, if_true]

end Chain

/-! ## Claims -/

namespace Chain

theorem appendAll_verifies (P : Primitives) (hP : P.Lawful) (seed : Bytes)
    (hs : seed.length = 32) (evs : List (Clock × IdentityEvent))
    (hev : ∀ p ∈ evs, p.2.Type_ ≠ "" ∧ p.2.ActorID ≠ "" ∧ (stamp p.1 p.2).marshalable = true) :
    ∀ c : IdentityChain,
      c.RootPublicKey = Base64.EncodeToString (P.ed25519PublicFromSeed seed) →
      Verify P (some c) = .ok →
      (appendAll P (Ed25519.NewKeyFromSeed P seed) (some c) evs).2
          = List.replicate evs.length .ok
        ∧ Verify P (appendAll P (Ed25519.NewKeyFromSeed P seed) (some c) evs).1 = .ok := by
  induction evs with
  | nil =>
    intro c _ hv
    exact ⟨rfl, hv⟩
  | cons p rest ih =>
    intro c hroot hv
    obtain ⟨clk, e⟩ := p
    have hp := hev (clk, e) (List.mem_cons_self _ _)
    have hlen := Ed25519.length_NewKeyFromSeed P seed hs (hP.publicKeySize seed hs)
    have hstep : AppendEvent P clk (some c) e (Ed25519.NewKeyFromSeed P seed) =
        (some { c with Blocks := c.Blocks
          ++ [newBlock P clk c e (Ed25519.NewKeyFromSeed P seed)] }, .ok) := by
      rw [AppendEvent_of_length_64 P clk c e _ hlen, Ed25519.drop_NewKeyFromSeed P seed hs]
      have hm : (completed P clk e).Timestamp.marshalable = true := by
        rw [completed_Timestamp]
        exact hp.2.2
      simp only [hroot, ne_eq, not_true_eq_false, if_false, hp.1, hp.2.1, hm,
        Bool.true_eq_false]
    have hv2 : Verify P (some { c with Blocks := c.Blocks
        ++ [newBlock P clk c e (Ed25519.NewKeyFromSeed P seed)] }) = .ok :=
      verifyLoop_snoc P c.Blocks _ hv (checkBlock_newBlock P hP clk c e seed hs)
    have hrest := ih (fun q hq => hev q (List.mem_cons_of_mem _ hq))
      { c with Blocks := c.Blocks ++ [newBlock P clk c e (Ed25519.NewKeyFromSeed P seed)] }
      hroot hv2
    simp only [appendAll, hstep, hrest.1, hrest.2, List.length_cons, List.replicate_succ,
      and_self]

end Chain

namespace Example

theorem primitives_lawful : primitives.Lawful where
  publicKeySize := by
    intro seed hs
    simp [primitives, hs]
  signVerify := by
    intro seed msg hs
    simp [primitives, Ed25519.NewKeyFromSeed, List.drop_append_eq_append_drop, hs]

end Example

/-- C1 (as amended): starting from `NewIdentityChain(owner, pk)` with `(pk, sk)` a key pair of
`NewKeyFromSeed`, every `AppendEvent` of a run of events that each have a non-empty type, a
non-empty actor id and a timestamp `json.Marshal` can write returns no error, and `Verify`
returns no error on the resulting chain. A timestamp can be written when its year, read in the
timestamp's own location, is within 0..9999 and the offset of that location is less than 24
hours; for a zero timestamp the clock reading in UTC stands in. -/
theorem C1_round_trip (P : Primitives) (hP : P.Lawful) (now : Time) (owner : String)
    (seed : Bytes) (hs : seed.length = 32) (evs : List (Clock × Chain.IdentityEvent))
    (hev : ∀ p ∈ evs, p.2.Type_ ≠ "" ∧ p.2.ActorID ≠ ""
      ∧ (Chain.stamp p.1 p.2).marshalable = true) :
    (Chain.appendAll P (Ed25519.NewKeyFromSeed P seed)
        (some (Chain.NewIdentityChain now owner (P.ed25519PublicFromSeed seed))) evs).2
        = List.replicate evs.length .ok
      ∧ Chain.Verify P (Chain.appendAll P (Ed25519.NewKeyFromSeed P seed)
        (some (Chain.NewIdentityChain now owner (P.ed25519PublicFromSeed seed))) evs).1 = .ok :=
  Chain.appendAll_verifies P hP seed hs evs hev
    (Chain.NewIdentityChain now owner (P.ed25519PublicFromSeed seed)) rfl rfl

/-- C1 at a concrete run: a dated login and a bare login appended under the example key. -/
theorem C1_round_trip_witness :
    (Chain.appendAll Example.primitives (Ed25519.NewKeyFromSeed Example.primitives Example.seed)
        (some Example.emptyChain)
        [(Example.clock, Example.login), (Example.clock, Example.bareLogin)]).2
        = [.ok, .ok]
      ∧ Chain.Verify Example.primitives
          (Chain.appendAll Example.primitives
            (Ed25519.NewKeyFromSeed Example.primitives Example.seed) (some Example.emptyChain)
            [(Example.clock, Example.login), (Example.clock, Example.bareLogin)]).1 = .ok :=
  C1_round_trip Example.primitives Example.primitives_lawful Example.clock.now "u" Example.seed
    (by decide) [(Example.clock, Example.login), (Example.clock, Example.bareLogin)] (by decide)

/-- C1 as stated fails: a login with a type and an actor, dated in the year 10000, is appended
under a genuine key pair to a fresh chain, and `AppendEvent` returns the serialisation error. -/
theorem C1_counterexample :
    Example.primitives.Lawful ∧ Example.seed.length = 32
      ∧ Example.lateLogin.Type_ ≠ "" ∧ Example.lateLogin.ActorID ≠ ""
      ∧ (Chain.AppendEvent Example.primitives Example.clock (some Example.emptyChain)
          Example.lateLogin (Ed25519.NewKeyFromSeed Example.primitives Example.seed)).2
        = .error .marshalEvent :=
  ⟨Example.primitives_lawful, by decide, by decide, by decide, by decide⟩

namespace Chain

/-- What `Verify` returns after the signature text of one block of a verifying chain is
replaced: the decoded bytes decide, not the text. -/
theorem verify_signature_replaced (P : Primitives) (c : IdentityChain) (i : Nat)
    (b : BlockLink) (hv : Verify P (some c) = .ok) (hb : c.Blocks[i]? = some b) (v : String) :
    Verify P (some (withBlock c i { b with Signature := v })) =
      match Base64.DecodeString v with
      | none => .error (.block i .signatureDecode)
      | some sig =>
        if P.ed25519Verify (keyBytes b) (hashBytes b) sig then .ok
        else .error (.block i .signatureFailed) := by
  have hv2 : verifyLoop P c.Blocks c.Blocks.enum = .ok := hv
  have hpass := (verifyLoop_ok_iff_getElem P c.Blocks).mp hv2 i b hb
  obtain ⟨h1, h2, pub, sig, hbytes, hk, hsg, hh, h3, h4⟩ :=
    (checkBlock_ok_iff P c.Blocks i b).mp hpass
  have hkb : keyBytes b = pub := by simp [keyBytes, hk]
  have hhb : hashBytes b = hbytes := by simp [hashBytes, hh]
  rw [hkb, hhb]
  cases hd : Base64.DecodeString v with
  | none =>
    have hc := checkBlock_signature_decode P c.Blocks i { b with Signature := v } pub
      h1 h2 hk hd
    have := verifyLoop_set_fail P c.Blocks i b _ hv2 hb (by rw [hc]; simp)
    rw [hc] at this
    exact this
  | some sig2 =>
    have hc := checkBlock_of_decoded P c.Blocks i { b with Signature := v } pub sig2
      hbytes h1 h2 hk hd hh h3
    by_cases hver : P.ed25519Verify pub hbytes sig2 = true
    · simp only [hver, if_true] at hc ⊢
      exact verifyLoop_set_pass P c.Blocks i b _ hv2 hb rfl hc
    · simp only [hver, if_false, Bool.false_eq_true] at hc ⊢
      have := verifyLoop_set_fail P c.Blocks i b _ hv2 hb (by rw [hc]; simp)
      rw [hc] at this
      exact this

/-- With any digest and any signature scheme: a new line added to the signature text of a block
of a verifying chain changes the text and not the verdict. -/
theorem verify_signature_newline (P : Primitives) (c : IdentityChain) (i : Nat)
    (b : BlockLink) (hv : Verify P (some c) = .ok) (hb : c.Blocks[i]? = some b) :
    b.Signature ++ "\n" ≠ b.Signature
      ∧ Verify P (some (withBlock c i { b with Signature := b.Signature ++ "\n" })) = .ok := by
  refine ⟨Base64.append_newline_ne _, ?_⟩
  have hv2 : verifyLoop P c.Blocks c.Blocks.enum = .ok := hv
  have hpass := (verifyLoop_ok_iff_getElem P c.Blocks).mp hv2 i b hb
  obtain ⟨h1, h2, pub, sig, hbytes, hk, hsg, hh, h3, h4⟩ :=
    (checkBlock_ok_iff P c.Blocks i b).mp hpass
  rw [verify_signature_replaced P c i b hv hb, Base64.DecodeString_append_newline, hsg]
  have hkb : keyBytes b = pub := by simp [keyBytes, hk]
  have hhb : hashBytes b = hbytes := by simp [hashBytes, hh]
  simp only [hkb, hhb, h4, if_true]

end Chain

/-- C2 (as amended): in a chain on which `Verify` succeeds, with `b` the block at index `i`:
replacing `prev_hash` or `hash` by any different value makes `Verify` return an error that
reports index `i`; replacing `event_hash` or `index` does so whenever the recomputed link hash
differs from the stored one; replacing `signature` does so exactly when the new text does not
decode or decodes to a signature that fails the check, and `Verify` still succeeds otherwise;
replacing `signer_public_key` does so when the new text does not decode, and for a text that
decodes to 32 bytes exactly when the signature fails under that key. -/
theorem C2_tamper_detection (P : Primitives) (c : Chain.IdentityChain) (i : Nat)
    (b : Chain.BlockLink) (hv : Chain.Verify P (some c) = .ok) (hb : c.Blocks[i]? = some b) :
    (∀ v, v ≠ b.PrevHash →
        Chain.Verify P (some (Chain.withBlock c i { b with PrevHash := v }))
          = .error (.block i .prevHashMismatch))
      ∧ (∀ v, v ≠ b.Hash →
        Chain.Verify P (some (Chain.withBlock c i { b with Hash := v }))
          = .error (.block i .hashMismatch))
      ∧ (∀ v, Chain.hashLink P { b with EventHash := v } ≠ b.Hash →
        Chain.Verify P (some (Chain.withBlock c i { b with EventHash := v }))
          = .error (.block i .hashMismatch))
      ∧ (∀ n, Chain.hashLink P { b with Index := n } ≠ b.Hash →
        Chain.Verify P (some (Chain.withBlock c i { b with Index := n }))
          = .error (.block i .hashMismatch))
      ∧ (∀ v, Chain.Verify P (some (Chain.withBlock c i { b with Signature := v })) =
          match Base64.DecodeString v with
          | none => .error (.block i .signatureDecode)
          | some sig =>
            if P.ed25519Verify (Chain.keyBytes b) (Chain.hashBytes b) sig then .ok
            else .error (.block i .signatureFailed))
      ∧ (∀ v, Base64.DecodeString v = none →
        Chain.Verify P (some (Chain.withBlock c i { b with SignerPublicKey := v }))
          = .error (.block i .signerKeyDecode))
      ∧ (∀ v pub, Base64.DecodeString v = some pub → pub.length = 32 →
        Chain.Verify P (some (Chain.withBlock c i { b with SignerPublicKey := v })) =
          if P.ed25519Verify pub (Chain.hashBytes b) (Chain.signatureBytes b) then .ok
          else .error (.block i .signatureFailed)) := by
  have hv2 : Chain.verifyLoop P c.Blocks c.Blocks.enum = .ok := hv
  have hpass := (Chain.verifyLoop_ok_iff_getElem P c.Blocks).mp hv2 i b hb
  obtain ⟨h1, h2, pub, sig, hbytes, hk, hsg, hh, h3, h4⟩ :=
    (Chain.checkBlock_ok_iff P c.Blocks i b).mp hpass
  have hkb : Chain.keyBytes b = pub := by simp [Chain.keyBytes, hk]
  have hsb : Chain.signatureBytes b = sig := by simp [Chain.signatureBytes, hsg]
  have hhb : Chain.hashBytes b = hbytes := by simp [Chain.hashBytes, hh]
  refine ⟨?_, ?_, ?_, ?_, ?_, ?_, ?_⟩
  · intro v hne
    have hc := Chain.checkBlock_prev_mismatch P c.Blocks i { b with PrevHash := v }
      (by rw [← h1]; exact hne)
    have := Chain.verifyLoop_set_fail P c.Blocks i b _ hv2 hb (by rw [hc]; simp)
    rw [hc] at this
    exact this
  · intro v hne
    have hc := Chain.checkBlock_hash_mismatch P c.Blocks i { b with Hash := v } h1
      (by
        have : Chain.hashLink P { b with Hash := v } = Chain.hashLink P b := rfl
        rw [this, ← h2]
        exact hne)
    have := Chain.verifyLoop_set_fail P c.Blocks i b _ hv2 hb (by rw [hc]; simp)
    rw [hc] at this
    exact this
  · intro v hne
    have hc := Chain.checkBlock_hash_mismatch P c.Blocks i { b with EventHash := v } h1
      (fun h => hne h.symm)
    have := Chain.verifyLoop_set_fail P c.Blocks i b _ hv2 hb (by rw [hc]; simp)
    rw [hc] at this
    exact this
  · intro n hne
    have hc := Chain.checkBlock_hash_mismatch P c.Blocks i { b with Index := n } h1
      (fun h => hne h.symm)
    have := Chain.verifyLoop_set_fail P c.Blocks i b _ hv2 hb (by rw [hc]; simp)
    rw [hc] at this
    exact this
  · intro v
    exact Chain.verify_signature_replaced P c i b hv hb v
  · intro v hd
    have hc := Chain.checkBlock_key_decode P c.Blocks i { b with SignerPublicKey := v }
      h1 h2 hd
    have := Chain.verifyLoop_set_fail P c.Blocks i b _ hv2 hb (by rw [hc]; simp)
    rw [hc] at this
    exact this
  · intro v pub2 hd hlen
    rw [hhb, hsb]
    have hc := Chain.checkBlock_of_decoded P c.Blocks i { b with SignerPublicKey := v } pub2 sig
      hbytes h1 h2 hd hsg hh hlen
    by_cases hver : P.ed25519Verify pub2 hbytes sig = true
    · simp only [hver, if_true] at hc ⊢
      exact Chain.verifyLoop_set_pass P c.Blocks i b _ hv2 hb rfl hc
    · simp only [hver, if_false, Bool.false_eq_true] at hc ⊢
      have := Chain.verifyLoop_set_fail P c.Blocks i b _ hv2 hb (by rw [hc]; simp)
      rw [hc] at this
      exact this

/-- C2 at a concrete chain: the one-block example chain, block 0, the text `x` written into
`prev_hash` and into `hash`. -/
theorem C2_tamper_detection_witness :
    Chain.Verify Example.primitives
        (some (Chain.withBlock Example.oneBlockChain 0
          { Example.firstBlock with PrevHash := "x" }))
        = .error (.block 0 .prevHashMismatch)
      ∧ Chain.Verify Example.primitives
        (some (Chain.withBlock Example.oneBlockChain 0 { Example.firstBlock with Hash := "x" }))
        = .error (.block 0 .hashMismatch) :=
  ⟨(C2_tamper_detection Example.primitives Example.oneBlockChain 0 Example.firstBlock
      (by decide) (by decide)).1 "x" (by decide),
    (C2_tamper_detection Example.primitives Example.oneBlockChain 0 Example.firstBlock
      (by decide) (by decide)).2.1 "x" (by decide)⟩

/-- C2 as stated fails: the one-block example chain verifies, the signature of block 0 is
replaced by a different text (the same text followed by a new line), and `Verify` still returns
no error. `Chain.verify_signature_newline` shows the same for every verifying chain. -/
theorem C2_counterexample :
    Chain.Verify Example.primitives (some Example.oneBlockChain) = .ok
      ∧ Example.oneBlockChain.Blocks[0]? = some Example.firstBlock
      ∧ Example.firstBlock.Signature ++ "\n" ≠ Example.firstBlock.Signature
      ∧ Chain.Verify Example.primitives
        (some (Chain.withBlock Example.oneBlockChain 0
          { Example.firstBlock with Signature := Example.firstBlock.Signature ++ "\n" }))
        = .ok :=
  ⟨by decide, by decide, by decide, by decide⟩

/-- C3: for a context whose risk is `normal` or `high`, `ValidateRootAction` returns no error
exactly when `long_phrase` is true and the number of true secondary factors is at least 2 for
`normal` and exactly 3 for `high`; with `long_phrase` false it fails whatever the factors. -/
theorem C3_auth_truth_table (ctx : Auth.AuthContext)
    (hr : ctx.Risk = Auth.RiskNormal ∨ ctx.Risk = Auth.RiskHigh) :
    (Auth.ValidateRootAction ctx = .ok ↔
        ctx.LongPhrase = true
          ∧ (ctx.Risk = Auth.RiskNormal → 2 ≤ Auth.secondaryFactors ctx)
          ∧ (ctx.Risk = Auth.RiskHigh → Auth.secondaryFactors ctx = 3))
      ∧ (ctx.LongPhrase = false → Auth.ValidateRootAction ctx = .error .longPhraseRequired) := by
  obtain ⟨lp, otp, totp, hw, risk⟩ := ctx
  simp only at hr
  rcases hr with hr | hr <;> subst hr <;> cases lp <;> cases otp <;> cases totp <;> cases hw <;>
    decide

/-- C3 at the spec's example: long phrase, e-mail code and TOTP without hardware key at normal
risk are accepted. -/
theorem C3_auth_truth_table_witness :
    Auth.ValidateRootAction ⟨true, true, true, false, "normal"⟩ = .ok :=
  ((C3_auth_truth_table ⟨true, true, true, false, "normal"⟩ (Or.inl rfl)).1).mpr
    (by decide)

/-- C4: when the public key derived from the private key differs, as base64 text, from the
chain's `root_public_key`, `AppendEvent` returns the signer error and the chain is what it was
before the call. -/
theorem C4_wrong_signer_rejected (P : Primitives) (clk : Clock) (c : Chain.IdentityChain)
    (e : Chain.IdentityEvent) (sk pub : Bytes) (hpub : Ed25519.Public sk = some pub)
    (hne : Base64.EncodeToString pub ≠ c.RootPublicKey) :
    Chain.AppendEvent P clk (some c) e sk = (some c, .error .notRootOwner) := by
  have h0 : ¬ sk.length = 0 := by
    intro h
    simp [Ed25519.Public, h] at hpub
  simp only [Chain.AppendEvent, h0, if_false, hpub, hne, ne_eq, not_false_eq_true, if_true]

/-- C4 at a concrete call: the one-block example chain and a key of another seed. -/
theorem C4_wrong_signer_rejected_witness :
    Chain.AppendEvent Example.primitives Example.clock (some Example.oneBlockChain)
        Example.login Example.otherKey
      = (some Example.oneBlockChain, .error .notRootOwner) :=
  C4_wrong_signer_rejected Example.primitives Example.clock Example.oneBlockChain Example.login
    Example.otherKey Example.otherSeed.reverse (by decide) (by decide)

namespace Chain

theorem expectedPrev_succ (blocks : List BlockLink) (k : Nat) (x : BlockLink)
    (hx : blocks[k]? = some x) : expectedPrev blocks (k + 1) = x.Hash := by
  simp [expectedPrev, hx]

/-- In a verifying chain without collisions the expected previous hashes of two positions
differ. -/
theorem expectedPrev_ne (P : Primitives) (blocks : List BlockLink)
    (hv : verifyLoop P blocks blocks.enum = .ok) (hcf : CollisionFree P blocks) :
    ∀ a b : Nat, a < b → b ≤ blocks.length → expectedPrev blocks a ≠ expectedPrev blocks b := by
  have hall := (verifyLoop_ok_iff_getElem P blocks).mp hv
  intro a
  induction a with
  | zero =>
    intro b hab hb
    obtain ⟨k, rfl⟩ : ∃ k, b = k + 1 := ⟨b - 1, by omega⟩
    have hk : k < blocks.length := by omega
    have hx : blocks[k]? = some blocks[k] := List.getElem?_eq_getElem hk
    obtain ⟨_, h2, _⟩ := (checkBlock_ok_iff P blocks k _).mp (hall k _ hx)
    rw [expectedPrev_succ blocks k _ hx, h2, hashLink_eq]
    intro h
    exact Hex.EncodeToString_ne_genesis _ h.symm
  | succ a ih =>
    intro b hab hb
    obtain ⟨k, rfl⟩ : ∃ k, b = k + 1 := ⟨b - 1, by omega⟩
    have hk : k < blocks.length := by omega
    have ha : a < blocks.length := by omega
    have hx : blocks[k]? = some blocks[k] := List.getElem?_eq_getElem hk
    have hy : blocks[a]? = some blocks[a] := List.getElem?_eq_getElem ha
    obtain ⟨hx1, hx2, _⟩ := (checkBlock_ok_iff P blocks k _).mp (hall k _ hx)
    obtain ⟨hy1, hy2, _⟩ := (checkBlock_ok_iff P blocks a _).mp (hall a _ hy)
    rw [expectedPrev_succ blocks k _ hx, expectedPrev_succ blocks a _ hy]
    intro h
    rw [hx2, hy2] at h
    have hprev := (hcf _ (List.getElem_mem ha) _ (List.getElem_mem hk) h).2.1
    rw [hx1, hy1] at hprev
    exact ih k (by omega) (by omega) hprev

end Chain

/-- C5: in a chain on which `Verify` succeeds (and on whose links the digest does not collide),
exchanging the blocks at positions `i < j` makes `Verify` return an error that reports index
`i`: the block moved there carries the previous hash of position `j`. -/
theorem C5_reordering_detection (P : Primitives) (c : Chain.IdentityChain) (i j : Nat)
    (hv : Chain.Verify P (some c) = .ok) (hcf : Chain.CollisionFree P c.Blocks)
    (hij : i < j) (hj : j < c.Blocks.length) :
    Chain.Verify P (some (Chain.swapBlocks c i j)) = .error (.block i .prevHashMismatch) := by
  have hv2 : Chain.verifyLoop P c.Blocks c.Blocks.enum = .ok := hv
  have hall := (Chain.verifyLoop_ok_iff_getElem P c.Blocks).mp hv2
  have hi : i < c.Blocks.length := by omega
  have hbi : c.Blocks[i]? = some c.Blocks[i] := List.getElem?_eq_getElem hi
  have hbj : c.Blocks[j]? = some c.Blocks[j] := List.getElem?_eq_getElem hj
  have hsw : Chain.swapBlocks c i j
      = { c with Blocks := (c.Blocks.set i c.Blocks[j]).set j c.Blocks[i] } := by
    simp only [Chain.swapBlocks, hbi, hbj]
  rw [hsw]
  have hprev : ∀ k, k ≤ i →
      Chain.expectedPrev ((c.Blocks.set i c.Blocks[j]).set j c.Blocks[i]) k
        = Chain.expectedPrev c.Blocks k := by
    intro k hk
    rw [Chain.expectedPrev_set_le _ j k _ (by omega), Chain.expectedPrev_set_le _ i k _ hk]
  obtain ⟨hj1, _⟩ := (Chain.checkBlock_ok_iff P c.Blocks j _).mp (hall j _ hbj)
  have hne : c.Blocks[j].PrevHash
      ≠ Chain.expectedPrev ((c.Blocks.set i c.Blocks[j]).set j c.Blocks[i]) i := by
    rw [hprev i (Nat.le_refl i), hj1]
    exact fun h => Chain.expectedPrev_ne P c.Blocks hv2 hcf i j hij (Nat.le_of_lt hj) h.symm
  have hc := Chain.checkBlock_prev_mismatch P
    ((c.Blocks.set i c.Blocks[j]).set j c.Blocks[i]) i c.Blocks[j] hne
  have hat : ((c.Blocks.set i c.Blocks[j]).set j c.Blocks[i])[i]? = some c.Blocks[j] := by
    rw [List.getElem?_set_ne (by omega), List.getElem?_set_self hi]
  have := Chain.verifyLoop_first P ((c.Blocks.set i c.Blocks[j]).set j c.Blocks[i]) i
    c.Blocks[j] hat
    (by
      intro k hk x hx
      rw [List.getElem?_set_ne (by omega), List.getElem?_set_ne (by omega)] at hx
      rw [Chain.checkBlock_congr P _ _ k x (hprev k (Nat.le_of_lt hk))]
      exact hall k x hx)
    (by rw [hc]; simp)
  rw [hc] at this
  exact this

/-- C5 at a concrete chain: the two blocks of the example chain exchanged. -/
theorem C5_reordering_detection_witness :
    Chain.Verify Example.primitives (some (Chain.swapBlocks Example.twoBlockChain 0 1))
      = .error (.block 0 .prevHashMismatch) :=
  C5_reordering_detection Example.primitives Example.twoBlockChain 0 1 (by decide) (by decide)
    (by decide) (by decide)

namespace Chain

/-- A call that does not return `nil` leaves the chain as it was. -/
theorem AppendEvent_unchanged (P : Primitives) (clk : Clock) (c : IdentityChain)
    (e : IdentityEvent) (sk : Bytes) (h : (AppendEvent P clk (some c) e sk).2 ≠ .ok) :
    (AppendEvent P clk (some c) e sk).1 = some c := by
  revert h
  unfold AppendEvent
  simp only []
  repeat' split
  all_goals simp

/-- A call that returns `nil` was made with a 64-byte key. -/
theorem AppendEvent_ok_length (P : Primitives) (clk : Clock) (c : IdentityChain)
    (e : IdentityEvent) (sk : Bytes) (h : (AppendEvent P clk (some c) e sk).2 = .ok) :
    sk.length = 64 := by
  revert h
  unfold AppendEvent
  simp only []
  repeat' split
  all_goals simp_all

end Chain

/-- C6 at the failing input: with any digest and any signature scheme, `Verify` on the
one-block chain `shortKeyChain` neither returns an error for index 0 nor returns `nil`; the
block passes the linkage and hash checks, its three texts decode, and the call of
`ed25519.Verify` with a three-byte public key aborts. -/
theorem C6_verify_aborts_on_short_key (P : Primitives) :
    Chain.Verify P (some (Chain.shortKeyChain P)) = .fault
      ∧ Base64.DecodeString "AAAA" = some [0, 0, 0]
      ∧ Base64.DecodeString "" = some [] := by
  refine ⟨?_, by decide, by decide⟩
  have hk : Base64.DecodeString "AAAA" = some [0, 0, 0] := by decide
  have hs : Base64.DecodeString "" = some [] := by decide
  have hc := Chain.checkBlock_key_length P (Chain.shortKeyChain P).Blocks 0
    ⟨0, "GENESIS", "", Chain.hashLink P ⟨0, "GENESIS", "", "", "", ""⟩, "", "AAAA"⟩
    [0, 0, 0] [] rfl rfl hk hs (by decide)
  show Chain.verifyLoop P (Chain.shortKeyChain P).Blocks (Chain.shortKeyChain P).Blocks.enum = _
  simp only [Chain.shortKeyChain, List.enum_cons, List.enumFrom_nil, Chain.verifyLoop] at hc ⊢
  rw [hc]

/-- C7: when `AppendEvent` returns no error on a chain with `n` blocks, the chain afterwards is
the original blocks followed by one new block, whose index is `n`, whose previous hash is
`GENESIS` for `n = 0` and the hash of the original last block otherwise, whose hash is the link
hash of its own index, previous hash and event hash, and whose signer key is the base64 text of
the public key derived from the signing key. -/
theorem C7_append_postcondition (P : Primitives) (clk : Clock) (c : Chain.IdentityChain)
    (e : Chain.IdentityEvent) (sk : Bytes)
    (h : (Chain.AppendEvent P clk (some c) e sk).2 = .ok) :
    ∃ next : Chain.BlockLink,
      (Chain.AppendEvent P clk (some c) e sk).1 = some { c with Blocks := c.Blocks ++ [next] }
        ∧ (c.Blocks ++ [next]).length = c.Blocks.length + 1
        ∧ (c.Blocks ++ [next]).take c.Blocks.length = c.Blocks
        ∧ next.Index = c.Blocks.length
        ∧ (c.Blocks = [] → next.PrevHash = "GENESIS")
        ∧ (∀ last, c.Blocks.getLast? = some last → next.PrevHash = last.Hash)
        ∧ next.Hash = Chain.hashLink P next
        ∧ ∃ pub, Ed25519.Public sk = some pub
          ∧ next.SignerPublicKey = Base64.EncodeToString pub := by
  have hlen := Chain.AppendEvent_ok_length P clk c e sk h
  have hstep := Chain.AppendEvent_of_length_64 P clk c e sk hlen
  rw [hstep] at h ⊢
  by_cases h1 : Base64.EncodeToString (sk.drop 32) ≠ c.RootPublicKey
  · simp [h1] at h
  · by_cases h2 : e.Type_ = ""
    · simp [h1, h2] at h
    · by_cases h3 : e.ActorID = ""
      · simp [h1, h2, h3] at h
      · by_cases h4 : (Chain.completed P clk e).Timestamp.marshalable = false
        · simp [h1, h2, h3, h4] at h
        · simp only [h1, h2, h3, h4, if_false, Bool.false_eq_true]
          refine ⟨Chain.newBlock P clk c e sk, rfl, by simp, by simp, rfl, ?_, ?_, rfl,
            sk.drop 32, Ed25519.Public_of_length_64 sk hlen, rfl⟩
          · intro hnil
            simp [Chain.newBlock, Chain.lastHash, hnil, Chain.genesisPrevHash]
          · intro last hlast
            simp [Chain.newBlock, Chain.lastHash, hlast]

/-- C7 at a concrete call: the bare login appended to the one-block example chain gives the
two-block example chain. -/
theorem C7_append_postcondition_witness :
    ∃ next : Chain.BlockLink,
      (Chain.AppendEvent Example.primitives Example.clock (some Example.oneBlockChain)
          Example.bareLogin (Ed25519.NewKeyFromSeed Example.primitives Example.seed)).1
          = some { Example.oneBlockChain with Blocks := Example.oneBlockChain.Blocks ++ [next] }
        ∧ next.Index = 1 ∧ next.PrevHash = Example.firstBlock.Hash := by
  obtain ⟨next, h1, _, _, h4, _, h6, _⟩ :=
    C7_append_postcondition Example.primitives Example.clock Example.oneBlockChain
      Example.bareLogin (Ed25519.NewKeyFromSeed Example.primitives Example.seed) (by decide)
  exact ⟨next, h1, h4, h6 Example.firstBlock rfl⟩

/-- C8 (as amended): for a 64-byte private key, `AppendEvent` returns an error exactly when the
derived public key differs from `root_public_key`, or the type is empty, or the actor id is
empty, or the timestamp cannot be serialised, which is when its year, read in the timestamp's
own location, is outside 0..9999 or the offset of that location is 24 hours or more (for a zero
timestamp the clock reading in UTC is the one serialised); it never returns the hex-decode error
and never aborts; an empty key is refused; and whatever the key, a call that does not return
`nil` leaves the chain unchanged. -/
theorem C8_append_failures (P : Primitives) (clk : Clock) (c : Chain.IdentityChain)
    (e : Chain.IdentityEvent) (sk : Bytes) (hsk : sk.length = 64) :
    Ed25519.Public sk = some (sk.drop 32)
      ∧ ((∃ err, (Chain.AppendEvent P clk (some c) e sk).2 = .error err) ↔
        (Base64.EncodeToString (sk.drop 32) ≠ c.RootPublicKey ∨ e.Type_ = "" ∨ e.ActorID = ""
          ∨ (Chain.stamp clk e).marshalable = false))
      ∧ (Chain.AppendEvent P clk (some c) e sk).2 ≠ .error .decodeLinkHash
      ∧ (Chain.AppendEvent P clk (some c) e sk).2 ≠ .fault
      ∧ Chain.AppendEvent P clk (some c) e [] = (some c, .error .keyRequired)
      ∧ (∀ key : Bytes, (Chain.AppendEvent P clk (some c) e key).2 ≠ .ok →
        (Chain.AppendEvent P clk (some c) e key).1 = some c) := by
  have hstep := Chain.AppendEvent_of_length_64 P clk c e sk hsk
  have hst : (Chain.completed P clk e).Timestamp = Chain.stamp clk e :=
    Chain.completed_Timestamp P clk e
  refine ⟨Ed25519.Public_of_length_64 sk hsk, ?_, ?_, ?_, rfl,
    fun key hkey => Chain.AppendEvent_unchanged P clk c e key hkey⟩
  all_goals rw [hstep, hst]
  all_goals by_cases h1 : Base64.EncodeToString (sk.drop 32) = c.RootPublicKey
  all_goals by_cases h2 : e.Type_ = ""
  all_goals by_cases h3 : e.ActorID = ""
  all_goals by_cases h4 : (Chain.stamp clk e).marshalable = false
  all_goals simp [h1, h2, h3, h4]

/-- C8 at a concrete call: the dated login and the example key on the one-block chain. -/
theorem C8_append_failures_witness :
    (∃ err, (Chain.AppendEvent Example.primitives Example.clock (some Example.oneBlockChain)
        Example.login (Ed25519.NewKeyFromSeed Example.primitives Example.seed)).2 = .error err) ↔
      (Base64.EncodeToString ((Ed25519.NewKeyFromSeed Example.primitives Example.seed).drop 32)
          ≠ Example.oneBlockChain.RootPublicKey
        ∨ Example.login.Type_ = "" ∨ Example.login.ActorID = ""
        ∨ (Chain.stamp Example.clock Example.login).marshalable = false) :=
  (C8_append_failures Example.primitives Example.clock Example.oneBlockChain Example.login
    (Ed25519.NewKeyFromSeed Example.primitives Example.seed) (by decide)).2.1

/-- C8 as stated fails: a 64-byte key whose public half is the chain's root key, an event with a
type and an actor, and `AppendEvent` still returns an error, the one of the serialisation branch,
because the event is dated in the year 10000. -/
theorem C8_counterexample :
    (Ed25519.NewKeyFromSeed Example.primitives Example.seed).length = 64
      ∧ Base64.EncodeToString ((Ed25519.NewKeyFromSeed Example.primitives Example.seed).drop 32)
        = Example.oneBlockChain.RootPublicKey
      ∧ Example.lateLogin.Type_ ≠ "" ∧ Example.lateLogin.ActorID ≠ ""
      ∧ Chain.AppendEvent Example.primitives Example.clock (some Example.oneBlockChain)
          Example.lateLogin (Ed25519.NewKeyFromSeed Example.primitives Example.seed)
        = (some Example.oneBlockChain, .error .marshalEvent) :=
  ⟨by decide, by decide, by decide, by decide, by decide⟩

/-- C9 (as amended): `NewIdentityChain` has no error result; for every owner id, empty or not,
it returns a chain with that owner id, the base64 text of the given root public key, the clock
reading as creation time and zero blocks. The empty owner id is refused by the store: `Create`
of such a chain returns the owner error and changes nothing. -/
theorem C9_new_identity_chain (now : Time) (ownerID : String) (rootPublicKey : Bytes) :
    (Chain.NewIdentityChain now ownerID rootPublicKey).OwnerID = ownerID
      ∧ (Chain.NewIdentityChain now ownerID rootPublicKey).RootPublicKey
        = Base64.EncodeToString rootPublicKey
      ∧ (Chain.NewIdentityChain now ownerID rootPublicKey).CreatedAt = now
      ∧ (Chain.NewIdentityChain now ownerID rootPublicKey).Blocks = []
      ∧ ∀ (fs : Store.FsAnswers) (s : Store.FileStore),
        Store.Create fs s (some (Chain.NewIdentityChain now "" rootPublicKey))
          = (s, .error .ownerRequired) :=
  ⟨rfl, rfl, rfl, rfl, fun _ _ => rfl⟩

/-- C9 as stated fails: called with the empty owner id, `NewIdentityChain` returns a chain, the
one with an empty `owner_id`, and not an error. -/
theorem C9_counterexample :
    Chain.NewIdentityChain Example.clock.now "" Example.seed.reverse
      = { OwnerID := "", RootPublicKey := "BwcHBwcHBwcHBwcHBwcHBwcHBwcHBwcHBwcHBwcHBwc=",
          CreatedAt := Example.clock.now, Blocks := [] } := by
  decide

namespace Store

open Chain

theorem lookup_mapSet (m : ChainMap) (k : String) (v : Option IdentityChain) :
    (mapSet m k v).lookup k = some v := by
  induction m with
  | nil => simp [mapSet, List.lookup]
  | cons p rest ih =>
    obtain ⟨k0, v0⟩ := p
    by_cases h : k0 = k
    · simp [mapSet, h, List.lookup]
    · have h2 : (k == k0) = false := by
        simp only [beq_eq_false_iff_ne, ne_eq]
        exact fun hk => h hk.symm
      simp [mapSet, h, List.lookup, h2, ih]

theorem mem_mapSet (m : ChainMap) (k : String) (v : Option IdentityChain)
    (p : String × Option IdentityChain) (hp : p ∈ mapSet m k v) : p = (k, v) ∨ p ∈ m := by
  induction m with
  | nil =>
    left
    simpa [mapSet] using hp
  | cons q rest ih =>
    obtain ⟨k0, v0⟩ := q
    by_cases h : k0 = k
    · simp only [mapSet, h, if_true, List.mem_cons] at hp
      rcases hp with hp | hp
      · exact Or.inl hp
      · exact Or.inr (List.mem_cons_of_mem _ hp)
    · simp only [mapSet, h, if_false, List.mem_cons] at hp
      rcases hp with hp | hp
      · exact Or.inr (hp ▸ List.mem_cons_self _ _)
      · rcases ih hp with h1 | h1
        · exact Or.inl h1
        · exact Or.inr (List.mem_cons_of_mem _ h1)

theorem marshalOk_mapSet (m : ChainMap) (k : String) (c : IdentityChain)
    (hm : marshalOk m = true) (hc : c.CreatedAt.marshalable = true) :
    marshalOk (mapSet m k (some c)) = true := by
  unfold marshalOk at hm ⊢
  rw [List.all_eq_true] at hm ⊢
  intro p hp
  rcases mem_mapSet m k (some c) p hp with h | h
  · subst h
    exact hc
  · exact hm p h

theorem clone_some (c : IdentityChain) : clone (some c) = some c := rfl

end Store

/-- C10 (as amended): for two chains with the same non-empty owner id that the store does not
hold yet, when the durable commit of the first `Create` succeeds (directory, serialisation,
temporary file and rename), `Create(c1)` returns no error, a following `Create(c2)` returns the
already-exists error and leaves the store as it was, and `Get` returns a chain equal to `c1`
before and after the second attempt. -/
theorem C10_store_exclusivity (fs1 fs2 : Store.FsAnswers) (s : Store.FileStore)
    (c1 c2 : Chain.IdentityChain) (hown : c1.OwnerID = c2.OwnerID) (hne : c1.OwnerID ≠ "")
    (habs : s.chains.lookup c1.OwnerID = none)
    (hmk : fs1.mkdirOk = true) (hwr : fs1.writeOk = true) (hrn : fs1.renameOk = true)
    (hms : Store.marshalOk s.chains = true) (hmc : c1.CreatedAt.marshalable = true) :
    (Store.Create fs1 s (some c1)).2 = .ok
      ∧ Store.Create fs2 (Store.Create fs1 s (some c1)).1 (some c2)
        = ((Store.Create fs1 s (some c1)).1, .error (.alreadyExists c2.OwnerID))
      ∧ Store.Get (Store.Create fs1 s (some c1)).1 c1.OwnerID = .ok (some c1)
      ∧ Store.Get (Store.Create fs2 (Store.Create fs1 s (some c1)).1 (some c2)).1 c1.OwnerID
        = .ok (some c1) := by
  have hmo := Store.marshalOk_mapSet s.chains c1.OwnerID c1 hms hmc
  have hcreate : Store.Create fs1 s (some c1) =
      ({ s with chains := Store.mapSet s.chains c1.OwnerID (some c1),
                disk := some (Store.mapSet s.chains c1.OwnerID (some c1)) }, .ok) := by
    simp [Store.Create, hne, habs, Store.saveLocked, hmk, hwr, hrn, Store.clone_some, hmo]
  have hne2 : c2.OwnerID ≠ "" := hown ▸ hne
  have hsecond : Store.Create fs2 (Store.Create fs1 s (some c1)).1 (some c2)
      = ((Store.Create fs1 s (some c1)).1, .error (.alreadyExists c2.OwnerID)) := by
    rw [hcreate]
    simp [Store.Create, hne, ← hown, Store.lookup_mapSet]
  have hget : Store.Get (Store.Create fs1 s (some c1)).1 c1.OwnerID = .ok (some c1) := by
    rw [hcreate]
    simp [Store.Get, Store.lookup_mapSet, Store.clone_some]
  refine ⟨by rw [hcreate], hsecond, hget, ?_⟩
  rw [hsecond]
  exact hget

/-- C10 at a concrete store: the empty store, the empty example chain and a rival chain of the
same owner, with every file operation succeeding. -/
theorem C10_store_exclusivity_witness :
    (Store.Create ⟨true, true, true⟩ Store.emptyStore (some Example.emptyChain)).2 = .ok
      ∧ Store.Create ⟨true, true, true⟩
          (Store.Create ⟨true, true, true⟩ Store.emptyStore (some Example.emptyChain)).1
          (some Store.rivalChain)
        = ((Store.Create ⟨true, true, true⟩ Store.emptyStore (some Example.emptyChain)).1,
            .error (.alreadyExists "u"))
      ∧ Store.Get (Store.Create ⟨true, true, true⟩ Store.emptyStore
          (some Example.emptyChain)).1 "u" = .ok (some Example.emptyChain)
      ∧ Store.Get (Store.Create ⟨true, true, true⟩
          (Store.Create ⟨true, true, true⟩ Store.emptyStore (some Example.emptyChain)).1
          (some Store.rivalChain)).1 "u" = .ok (some Example.emptyChain) :=
  C10_store_exclusivity ⟨true, true, true⟩ ⟨true, true, true⟩ Store.emptyStore
    Example.emptyChain Store.rivalChain (by decide) (by decide) (by decide) rfl rfl rfl
    (by decide) (by decide)

/-- C10 as stated fails: the store holds nothing for owner `u`, the owner id is not empty, the
directory of the store file cannot be created, and `Create(c1)` returns an error. -/
theorem C10_counterexample :
    Store.emptyStore.chains.lookup Example.emptyChain.OwnerID = none
      ∧ Example.emptyChain.OwnerID ≠ ""
      ∧ (Store.Create ⟨false, true, true⟩ Store.emptyStore (some Example.emptyChain)).2
        = .error .mkdirStoreDir :=
  ⟨by decide, by decide, by decide⟩

/-! ## Facts about the store -/

namespace Store

open Chain

theorem saveLocked_chains (fs : FsAnswers) (s : FileStore) :
    (saveLocked fs s).1.chains = s.chains := by
  unfold saveLocked
  repeat' split
  all_goals rfl

/-- A `Create` that returns `nil` has put the chain under its owner id. -/
theorem Create_ok_chains (fs : FsAnswers) (s : FileStore) (c : IdentityChain)
    (h : (Create fs s (some c)).2 = .ok) :
    (Create fs s (some c)).1.chains = mapSet s.chains c.OwnerID (some c) := by
  revert h
  simp only [Create]
  by_cases h1 : c.OwnerID = ""
  · simp [h1]
  · cases h2 : s.chains.lookup c.OwnerID with
    | some v => simp [h1]
    | none =>
      simp only [h1, if_false, saveLocked_chains, clone_some]
      exact fun _ => trivial

/-- An `Update` that returns `nil` has put the chain under its owner id. -/
theorem Update_ok_chains (fs : FsAnswers) (s : FileStore) (c : IdentityChain)
    (h : (Update fs s (some c)).2 = .ok) :
    (Update fs s (some c)).1.chains = mapSet s.chains c.OwnerID (some c) := by
  revert h
  simp only [Update]
  by_cases h1 : c.OwnerID = ""
  · simp [h1]
  · cases h2 : s.chains.lookup c.OwnerID with
    | none => simp [h1]
    | some v =>
      simp only [h1, if_false, saveLocked_chains, clone_some]
      exact fun _ => trivial

theorem keys_mapSet (m : ChainMap) (k : String) (v : Option IdentityChain) :
    (mapSet m k v).map Prod.fst
      = if k ∈ m.map Prod.fst then m.map Prod.fst else m.map Prod.fst ++ [k] := by
  induction m with
  | nil => simp [mapSet]
  | cons p rest ih =>
    obtain ⟨k0, v0⟩ := p
    by_cases h : k0 = k
    · simp [mapSet, h]
    · have hne : ¬ k = k0 := fun hk => h hk.symm
      by_cases hmem : k ∈ rest.map Prod.fst
      · simp only [mapSet, h, if_false, List.map_cons, ih, hmem, if_true, List.mem_cons,
          or_true]
      · simp only [mapSet, h, if_false, List.map_cons, ih, hmem, List.mem_cons, hne,
          or_self, List.cons_append]

theorem nodup_keys_mapSet (m : ChainMap) (k : String) (v : Option IdentityChain)
    (h : (m.map Prod.fst).Nodup) : ((mapSet m k v).map Prod.fst).Nodup := by
  rw [keys_mapSet]
  by_cases hmem : k ∈ m.map Prod.fst
  · simp only [hmem, if_true]
    exact h
  · simp only [hmem, if_false]
    exact List.Nodup.append h (List.nodup_singleton k) (by simpa using hmem)

theorem lookup_of_mem (m : ChainMap) (h : (m.map Prod.fst).Nodup) :
    ∀ p ∈ m, m.lookup p.1 = some p.2 := by
  induction m with
  | nil => simp
  | cons q rest ih =>
    obtain ⟨k0, v0⟩ := q
    simp only [List.map_cons, List.nodup_cons] at h
    intro p hp
    rcases List.mem_cons.mp hp with hp | hp
    · subst hp
      simp [List.lookup]
    · have hne : (p.1 == k0) = false := by
        simp only [beq_eq_false_iff_ne, ne_eq]
        intro hk
        exact h.1 (hk ▸ List.mem_map_of_mem Prod.fst hp)
      simp only [List.lookup, hne]
      exact ih h.2 p hp

end Store

theorem listsOnePerOwner_of_nodup (s : Store.FileStore) (h : (storeOwners s).Nodup) :
    ListsOnePerOwner s := by
  refine ⟨h, s.chains.map (fun entry : String × Option Chain.IdentityChain =>
    Store.clone entry.2), rfl, ?_⟩
  unfold storeOwners
  rw [List.forall₂_map_left_iff, List.forall₂_map_right_iff, List.forall₂_same]
  intro p hp
  simp only [Store.Get, Store.lookup_of_mem s.chains h p hp]

/-- C11 (as amended): for an owner id the store has no entry for, `Get` fails with `NotFound`;
`Update` of a chain carrying that owner id fails with `NotFound` when the id is not empty and
with the valid-chain error when it is empty, and leaves the store unchanged either way; `List`
on a store without entries returns an empty collection and no error. -/
theorem C11_not_found (fs : Store.FsAnswers) (s : Store.FileStore) (ownerID : String)
    (c : Chain.IdentityChain) (habs : s.chains.lookup ownerID = none)
    (hc : c.OwnerID = ownerID) :
    Store.Get s ownerID = .error .notFound
      ∧ (ownerID ≠ "" → Store.Update fs s (some c) = (s, .error .notFound))
      ∧ (ownerID = "" → Store.Update fs s (some c) = (s, .error .validChainRequired))
      ∧ (s.chains = [] → Store.List s = .ok []) := by
  subst hc
  refine ⟨by simp [Store.Get, habs], ?_, ?_, ?_⟩
  · intro hne
    simp [Store.Update, hne, habs]
  · intro he
    simp [Store.Update, he]
  · intro hnil
    simp [Store.List, hnil]

/-- C11 at a concrete store: the empty store, owner `u` and the empty example chain. -/
theorem C11_not_found_witness :
    Store.Get Store.emptyStore "u" = .error .notFound
      ∧ Store.Update ⟨true, true, true⟩ Store.emptyStore (some Example.emptyChain)
        = (Store.emptyStore, .error .notFound)
      ∧ Store.List Store.emptyStore = .ok [] :=
  ⟨(C11_not_found ⟨true, true, true⟩ Store.emptyStore "u" Example.emptyChain rfl rfl).1,
    (C11_not_found ⟨true, true, true⟩ Store.emptyStore "u" Example.emptyChain rfl rfl).2.1
      (by decide),
    (C11_not_found ⟨true, true, true⟩ Store.emptyStore "u" Example.emptyChain rfl rfl).2.2.2
      rfl⟩

/-- C11 as stated fails: the store has no entry for the empty owner id, and `Update` of a chain
carrying the empty owner id returns the valid-chain error, which is not `ErrNotFound`. -/
theorem C11_counterexample :
    Store.emptyStore.chains.lookup "" = none
      ∧ Store.namelessChain.OwnerID = ""
      ∧ Store.Update ⟨true, true, true⟩ Store.emptyStore (some Store.namelessChain)
        = (Store.emptyStore, .error .validChainRequired) :=
  ⟨by decide, by decide, by decide⟩

/-- On chain values: after a `Create(c)` or an `Update(c)` that returns no error,
`Get(c.owner_id)` returns a chain equal to `c` in every field, and in a store whose map has one
entry per owner the listing then has exactly one chain per stored owner. -/
theorem read_after_write_values (fs : Store.FsAnswers) (s : Store.FileStore)
    (c : Chain.IdentityChain) (hnd : (storeOwners s).Nodup) :
    ((Store.Create fs s (some c)).2 = .ok →
        Store.Get (Store.Create fs s (some c)).1 c.OwnerID = .ok (some c)
          ∧ ListsOnePerOwner (Store.Create fs s (some c)).1)
      ∧ ((Store.Update fs s (some c)).2 = .ok →
        Store.Get (Store.Update fs s (some c)).1 c.OwnerID = .ok (some c)
          ∧ ListsOnePerOwner (Store.Update fs s (some c)).1) := by
  constructor
  · intro h
    have hch := Store.Create_ok_chains fs s c h
    refine ⟨by simp [Store.Get, hch, Store.lookup_mapSet, Store.clone_some], ?_⟩
    apply listsOnePerOwner_of_nodup
    unfold storeOwners
    rw [hch]
    exact Store.nodup_keys_mapSet _ _ _ hnd
  · intro h
    have hch := Store.Update_ok_chains fs s c h
    refine ⟨by simp [Store.Get, hch, Store.lookup_mapSet, Store.clone_some], ?_⟩
    apply listsOnePerOwner_of_nodup
    unfold storeOwners
    rw [hch]
    exact Store.nodup_keys_mapSet _ _ _ hnd

namespace Chain

/-- A call that returns `nil` appended `newBlock` under the root key. -/
theorem AppendEvent_ok_eq (P : Primitives) (clk : Clock) (c : IdentityChain)
    (e : IdentityEvent) (sk : Bytes) (h : (AppendEvent P clk (some c) e sk).2 = .ok) :
    AppendEvent P clk (some c) e sk
        = (some { c with Blocks := c.Blocks ++ [newBlock P clk c e sk] }, .ok)
      ∧ Base64.EncodeToString (sk.drop 32) = c.RootPublicKey := by
  have hlen := AppendEvent_ok_length P clk c e sk h
  have hstep := AppendEvent_of_length_64 P clk c e sk hlen
  rw [hstep] at h ⊢
  by_cases h1 : Base64.EncodeToString (sk.drop 32) = c.RootPublicKey
  · by_cases h2 : e.Type_ = ""
    · simp [h1, h2] at h
    · by_cases h3 : e.ActorID = ""
      · simp [h1, h2, h3] at h
      · by_cases h4 : (completed P clk e).Timestamp.marshalable = false
        · simp [h1, h2, h3, h4] at h
        · simp [h1, h2, h3, h4]
  · simp [h1] at h

/-- Whatever the outcome, the blocks before the call are a prefix of the blocks after it. -/
theorem AppendEvent_prefix (P : Primitives) (clk : Clock) (c c2 : IdentityChain)
    (e : IdentityEvent) (sk : Bytes) (h : (AppendEvent P clk (some c) e sk).1 = some c2) :
    c.Blocks <+: c2.Blocks := by
  by_cases hok : (AppendEvent P clk (some c) e sk).2 = .ok
  · rw [(AppendEvent_ok_eq P clk c e sk hok).1] at h
    simp only [Option.some.injEq] at h
    subst h
    exact List.prefix_append _ _
  · rw [AppendEvent_unchanged P clk c e sk hok] at h
    simp only [Option.some.injEq] at h
    subst h
    exact List.prefix_refl _

end Chain

/-- C13 at the failing inputs: a `Create` whose directory creation fails returns an error, and
the owner that `Get` did not find before the call is found after it; an `Update` whose rename
fails returns an error, and `Get` returns the chain of the failed update while the document on
the disk is the one of the last commit. -/
theorem C13_failed_commit_is_visible :
    (Store.Create ⟨false, true, true⟩ Store.emptyStore (some Example.emptyChain)).2
        = .error .mkdirStoreDir
      ∧ Store.Get Store.emptyStore "u" = .error .notFound
      ∧ Store.Get (Store.Create ⟨false, true, true⟩ Store.emptyStore
          (some Example.emptyChain)).1 "u" = .ok (some Example.emptyChain)
      ∧ (Store.Update ⟨true, true, false⟩ Store.storeWithOneBlock
          (some Example.twoBlockChain)).2 = .error .commitStore
      ∧ Store.Get Store.storeWithOneBlock "u" = .ok (some Example.oneBlockChain)
      ∧ Store.Get (Store.Update ⟨true, true, false⟩ Store.storeWithOneBlock
          (some Example.twoBlockChain)).1 "u" = .ok (some Example.twoBlockChain)
      ∧ (Store.Update ⟨true, true, false⟩ Store.storeWithOneBlock
          (some Example.twoBlockChain)).1.disk = some [("u", some Example.oneBlockChain)] :=
  ⟨by decide, by decide, by decide, by decide, by decide, by decide, by decide⟩

/-- C14 (as amended): after an `Update` that returns no error, the block sequence stored for the
owner is the block sequence of the chain that was passed, whatever was stored before; the
sequence stored before is a prefix of it when the chain passed is what `AppendEvent` left of the
stored chain. -/
theorem C14_update_replaces (fs : Store.FsAnswers) (s : Store.FileStore)
    (c : Chain.IdentityChain) (hok : (Store.Update fs s (some c)).2 = .ok) :
    Store.Get (Store.Update fs s (some c)).1 c.OwnerID = .ok (some c)
      ∧ ∀ (old : Chain.IdentityChain) (P : Primitives) (clk : Clock)
          (e : Chain.IdentityEvent) (sk : Bytes),
        Store.Get s c.OwnerID = .ok (some old) →
        (Chain.AppendEvent P clk (some old) e sk).1 = some c → old.Blocks <+: c.Blocks := by
  have hch := Store.Update_ok_chains fs s c hok
  exact ⟨by simp [Store.Get, hch, Store.lookup_mapSet, Store.clone_some],
    fun old P clk e sk _ h => Chain.AppendEvent_prefix P clk old c e sk h⟩

/-- C14 at a concrete store: the two-block example chain replaces the one-block chain. -/
theorem C14_update_replaces_witness :
    Store.Get (Store.Update ⟨true, true, true⟩ Store.storeWithOneBlock
        (some Example.twoBlockChain)).1 "u" = .ok (some Example.twoBlockChain) :=
  (C14_update_replaces ⟨true, true, true⟩ Store.storeWithOneBlock Example.twoBlockChain
    (by decide)).1

/-- C14 as stated fails: the store holds the one-block example chain for owner `u`, an `Update`
with the empty chain of the same owner returns no error, and the block stored before is gone:
the old sequence is not a prefix of the new one. -/
theorem C14_counterexample :
    Store.Get Store.storeWithOneBlock "u" = .ok (some Example.oneBlockChain)
      ∧ (Store.Update ⟨true, true, true⟩ Store.storeWithOneBlock
          (some Example.emptyChain)).2 = .ok
      ∧ Store.Get (Store.Update ⟨true, true, true⟩ Store.storeWithOneBlock
          (some Example.emptyChain)).1 "u" = .ok (some Example.emptyChain)
      ∧ ¬ (Example.oneBlockChain.Blocks <+: Example.emptyChain.Blocks) :=
  ⟨by decide, by decide, by decide, by decide⟩

namespace Store

open Chain

theorem Create_chains_cases (fs : FsAnswers) (s : FileStore) (c : Option IdentityChain) :
    (Create fs s c).1.chains = s.chains
      ∨ ∃ c1, c = some c1 ∧ (Create fs s c).1.chains = mapSet s.chains c1.OwnerID (some c1) := by
  cases c with
  | none => exact Or.inl rfl
  | some c1 =>
    simp only [Create]
    by_cases h1 : c1.OwnerID = ""
    · simp [h1]
    · cases h2 : s.chains.lookup c1.OwnerID with
      | some v => simp [h1]
      | none =>
        right
        exact ⟨c1, rfl, by simp only [h1, if_false, saveLocked_chains, clone_some]⟩

theorem Update_chains_cases (fs : FsAnswers) (s : FileStore) (c : Option IdentityChain) :
    (Update fs s c).1.chains = s.chains
      ∨ ∃ c1, c = some c1 ∧ (Update fs s c).1.chains = mapSet s.chains c1.OwnerID (some c1) := by
  cases c with
  | none => exact Or.inl rfl
  | some c1 =>
    simp only [Update]
    by_cases h1 : c1.OwnerID = ""
    · simp [h1]
    · cases h2 : s.chains.lookup c1.OwnerID with
      | none => simp [h1]
      | some v =>
        right
        exact ⟨c1, rfl, by simp only [h1, if_false, saveLocked_chains, clone_some]⟩

end Store

/-- A property of every chain in the store and of every chain the calls pass to it is a property
of every chain in the store afterwards. -/
theorem runStore_preserves (Good : Chain.IdentityChain → Prop) (ops : List StoreOp) :
    ∀ s : Store.FileStore, (∀ k c, (k, some c) ∈ s.chains → Good c) →
      (∀ op ∈ ops, ∀ c, op.supplied = some c → Good c) →
      ∀ k c, (k, some c) ∈ (runStore s ops).chains → Good c := by
  induction ops with
  | nil =>
    intro s hs _ k c hk
    exact hs k c hk
  | cons op rest ih =>
    intro s hs hops
    have hstep : ∀ k c, (k, some c) ∈ (stepStore s op).chains → Good c := by
      intro k c hk
      have hsup := hops op (List.mem_cons_self _ _)
      cases op with
      | create fs c0 =>
        rcases Store.Create_chains_cases fs s c0 with h | ⟨c1, hc1, h⟩
        · exact hs k c (by simpa [stepStore, h] using hk)
        · simp only [stepStore, h] at hk
          rcases Store.mem_mapSet _ _ _ _ hk with heq | hmem
          · simp only [Prod.mk.injEq, Option.some.injEq] at heq
            exact heq.2 ▸ hsup c1 hc1
          · exact hs k c hmem
      | update fs c0 =>
        rcases Store.Update_chains_cases fs s c0 with h | ⟨c1, hc1, h⟩
        · exact hs k c (by simpa [stepStore, h] using hk)
        · simp only [stepStore, h] at hk
          rcases Store.mem_mapSet _ _ _ _ hk with heq | hmem
          · simp only [Prod.mk.injEq, Option.some.injEq] at heq
            exact heq.2 ▸ hsup c1 hc1
          · exact hs k c hmem
      | get o => exact hs k c hk
      | list => exact hs k c hk
    exact ih (stepStore s op) hstep (fun o ho => hops o (List.mem_cons_of_mem _ ho))

/-- C15 (as amended): the store keeps the chains it is given and checks none of them. After any
sequence of `Create`, `Update`, `Get` and `List` calls on a store that started empty, every
chain in the store verifies, with every block hash recomputable and every signature valid under
the block's signer key, provided every chain passed to `Create` and `Update` verifies. -/
theorem C15_persisted_chains (P : Primitives) (s0 : Store.FileStore) (h0 : s0.chains = [])
    (ops : List StoreOp)
    (hops : ∀ op ∈ ops, ∀ c, op.supplied = some c → Chain.Verify P (some c) = .ok) :
    ∀ k c, (k, some c) ∈ (runStore s0 ops).chains →
      Chain.Verify P (some c) = .ok
        ∧ ∀ (i : Nat) (b : Chain.BlockLink), c.Blocks[i]? = some b →
          b.Hash = Chain.hashLink P b
            ∧ (Chain.keyBytes b).length = 32
            ∧ P.ed25519Verify (Chain.keyBytes b) (Chain.hashBytes b) (Chain.signatureBytes b)
              = true := by
  intro k c hk
  have hv := runStore_preserves (fun c => Chain.Verify P (some c) = .ok) ops s0
    (by simp [h0]) hops k c hk
  refine ⟨hv, ?_⟩
  intro i b hb
  have hv2 : Chain.verifyLoop P c.Blocks c.Blocks.enum = .ok := hv
  have hpass := (Chain.verifyLoop_ok_iff_getElem P c.Blocks).mp hv2 i b hb
  obtain ⟨_, h2, pub, sig, hbytes, hkd, hsg, hh, h3, h4⟩ :=
    (Chain.checkBlock_ok_iff P c.Blocks i b).mp hpass
  simp only [Chain.keyBytes, Chain.hashBytes, Chain.signatureBytes, hkd, hsg, hh,
    Option.getD_some]
  exact ⟨h2, h3, h4⟩

/-- C15 at a concrete run: the one-block example chain is created, read, replaced by the
two-block chain and listed. -/
theorem C15_persisted_chains_witness :
    Chain.Verify Example.primitives (some Example.twoBlockChain) = .ok :=
  (C15_persisted_chains Example.primitives Store.emptyStore rfl
    [.create ⟨true, true, true⟩ (some Example.oneBlockChain), .get "u",
      .update ⟨true, true, true⟩ (some Example.twoBlockChain), .list]
    (by decide) "u" Example.twoBlockChain (by decide)).1

/-- C15 as stated fails: the calls of the repository's own store test (create the empty chain,
get it, update it with a block made by hand) all return no error, the store then holds the
hand-made chain, and with any digest and any signature scheme `Verify` does not return `nil`
on it. -/
theorem C15_counterexample :
    (Store.Create ⟨true, true, true⟩ Store.emptyStore (some Example.emptyChain)).2 = .ok
      ∧ (Store.Update ⟨true, true, true⟩
          (Store.Create ⟨true, true, true⟩ Store.emptyStore (some Example.emptyChain)).1
          (some Example.handMadeChain)).2 = .ok
      ∧ (runStore Store.emptyStore
          [.create ⟨true, true, true⟩ (some Example.emptyChain), .get "u",
            .update ⟨true, true, true⟩ (some Example.handMadeChain), .list]).chains
        = [("u", some Example.handMadeChain)]
      ∧ ∀ P : Primitives, Chain.Verify P (some Example.handMadeChain) ≠ .ok := by
  refine ⟨by decide, by decide, by decide, ?_⟩
  intro P hv
  have hv2 : Chain.verifyLoop P Example.handMadeChain.Blocks
      Example.handMadeChain.Blocks.enum = .ok := hv
  have hpass := (Chain.verifyLoop_ok_iff_getElem P Example.handMadeChain.Blocks).mp hv2 0
    ⟨0, "GENESIS", "", "", "", ""⟩ rfl
  obtain ⟨_, _, pub, sig, hbytes, hkd, _, _, h3, _⟩ :=
    (Chain.checkBlock_ok_iff P _ 0 _).mp hpass
  have hempty : Base64.DecodeString "" = some [] := by decide
  simp only [hempty, Option.some.injEq] at hkd
  subst hkd
  simp at h3

/-- C16 at the failing input: the one-block example chain, whose block is hashed and signed
under the example key, is given the root key of another key pair; the signer key of the block
then differs from the root key and `Verify` returns no error. With any primitives and any
chain, `Verify` returns the same whatever `root_public_key` holds. -/
theorem C16_verify_ignores_root_key :
    Chain.Verify Example.primitives (some Example.foreignRootChain) = .ok
      ∧ Example.foreignRootChain.Blocks = [Example.firstBlock]
      ∧ Example.firstBlock.SignerPublicKey ≠ Example.foreignRootChain.RootPublicKey
      ∧ ∀ (P : Primitives) (c : Chain.IdentityChain) (root : String),
        Chain.Verify P (some { c with RootPublicKey := root }) = Chain.Verify P (some c) :=
  ⟨by decide, by decide, by decide, fun _ _ _ => rfl⟩

/-- C17 (as amended): on a chain on which `Verify` returns no error, the hash of the block at
every position is the link hash of the block's own index, previous hash and event hash; the
index is bound into the hash and is not compared with the position. -/
theorem C17_index_bound_into_hash (P : Primitives) (c : Chain.IdentityChain) (i : Nat)
    (b : Chain.BlockLink) (hv : Chain.Verify P (some c) = .ok) (hb : c.Blocks[i]? = some b) :
    b.Hash = Hex.EncodeToString (Chain.linkDigest P b.Index b.PrevHash b.EventHash) := by
  have hv2 : Chain.verifyLoop P c.Blocks c.Blocks.enum = .ok := hv
  have hpass := (Chain.verifyLoop_ok_iff_getElem P c.Blocks).mp hv2 i b hb
  exact ((Chain.checkBlock_ok_iff P c.Blocks i b).mp hpass).2.1

/-- C17 at a concrete chain: block 0 of the one-block example chain. -/
theorem C17_index_bound_into_hash_witness :
    Example.firstBlock.Hash
      = Hex.EncodeToString (Chain.linkDigest Example.primitives Example.firstBlock.Index
          Example.firstBlock.PrevHash Example.firstBlock.EventHash) :=
  C17_index_bound_into_hash Example.primitives Example.oneBlockChain 0 Example.firstBlock
    (by decide) (by decide)

/-- C17 as stated fails: `Verify` returns no error on a chain whose block at position 0 carries
index 5. -/
theorem C17_counterexample :
    Chain.Verify Example.primitives (some Example.skewedChain) = .ok
      ∧ Example.skewedChain.Blocks.map (fun b => b.Index) = [5] :=
  ⟨by decide, by decide⟩

/-- C18 at the failing input: block 0 passes every check, block 1 passes the linkage and hash
checks, its signer key text `AAAA` is valid base64 for three bytes and its signature text is
valid base64, and `Verify` aborts instead of returning an error for index 1. -/
theorem C18_verify_aborts_on_malformed_key :
    Chain.Verify Example.primitives (some Example.oneBlockChain) = .ok
      ∧ Example.shortKeyTailChain.Blocks = [Example.firstBlock, Example.shortKeyBlock]
      ∧ Example.shortKeyBlock.PrevHash = Example.firstBlock.Hash
      ∧ Example.shortKeyBlock.Hash = Chain.hashLink Example.primitives Example.shortKeyBlock
      ∧ Base64.DecodeString Example.shortKeyBlock.SignerPublicKey = some [0, 0, 0]
      ∧ Base64.DecodeString Example.shortKeyBlock.Signature = some []
      ∧ Chain.Verify Example.primitives (some Example.shortKeyTailChain) = .fault :=
  ⟨by decide, by decide, by decide, by decide, by decide, by decide, by decide⟩

namespace Chain

theorem soundAt_append (P : Primitives) (clk : Clock) (c : IdentityChain) (e : IdentityEvent)
    (sk : Bytes) (hroot : Base64.EncodeToString (sk.drop 32) = c.RootPublicKey)
    (hc : ∀ i b, c.Blocks[i]? = some b → SoundAt P c i b) :
    ∀ i b, (c.Blocks ++ [newBlock P clk c e sk])[i]? = some b →
      SoundAt P { c with Blocks := c.Blocks ++ [newBlock P clk c e sk] } i b := by
  intro i b hb
  by_cases hi : i < c.Blocks.length
  · rw [List.getElem?_append_left hi] at hb
    obtain ⟨h1, h2, h3, h4⟩ := hc i b hb
    exact ⟨h1, by
      show b.PrevHash = expectedPrev (c.Blocks ++ [newBlock P clk c e sk]) i
      rw [expectedPrev_append_left _ _ _ (Nat.le_of_lt hi)]
      exact h2, h3, h4⟩
  · have hlt := (List.getElem?_eq_some.mp hb).1
    simp only [List.length_append, List.length_singleton] at hlt
    have hi2 : i = c.Blocks.length := by omega
    subst hi2
    simp only [List.getElem?_concat_length, Option.some.injEq] at hb
    subst hb
    refine ⟨rfl, ?_, rfl, hroot⟩
    show lastHash c.Blocks = expectedPrev (c.Blocks ++ [newBlock P clk c e sk]) c.Blocks.length
    rw [expectedPrev_append_left _ _ _ (Nat.le_refl _), expectedPrev_length]

theorem soundAt_step (P : Primitives) (clk : Clock) (c : IdentityChain) (e : IdentityEvent)
    (sk : Bytes) (hc : ∀ i b, c.Blocks[i]? = some b → SoundAt P c i b) :
    ∃ c2, (AppendEvent P clk (some c) e sk).1 = some c2
      ∧ c2.OwnerID = c.OwnerID ∧ c2.RootPublicKey = c.RootPublicKey
      ∧ ∀ i b, c2.Blocks[i]? = some b → SoundAt P c2 i b := by
  by_cases hok : (AppendEvent P clk (some c) e sk).2 = .ok
  · obtain ⟨heq, hroot⟩ := AppendEvent_ok_eq P clk c e sk hok
    rw [heq]
    exact ⟨_, rfl, rfl, rfl, soundAt_append P clk c e sk hroot hc⟩
  · rw [AppendEvent_unchanged P clk c e sk hok]
    exact ⟨c, rfl, rfl, rfl, hc⟩

theorem soundAt_appendCalls (P : Primitives) (calls : List (Clock × IdentityEvent × Bytes)) :
    ∀ c : IdentityChain, (∀ i b, c.Blocks[i]? = some b → SoundAt P c i b) →
      ∃ c2, appendCalls P (some c) calls = some c2
        ∧ c2.OwnerID = c.OwnerID ∧ c2.RootPublicKey = c.RootPublicKey
        ∧ ∀ i b, c2.Blocks[i]? = some b → SoundAt P c2 i b := by
  induction calls with
  | nil =>
    intro c hc
    exact ⟨c, rfl, rfl, rfl, hc⟩
  | cons call rest ih =>
    intro c hc
    obtain ⟨clk, e, sk⟩ := call
    obtain ⟨c1, h1, ho1, hr1, hs1⟩ := soundAt_step P clk c e sk hc
    obtain ⟨c2, h2, ho2, hr2, hs2⟩ := ih c1 hs1
    refine ⟨c2, ?_, ho2.trans ho1, hr2.trans hr1, hs2⟩
    simp only [appendCalls, h1, h2]

theorem structurallySound_of_soundAt (P : Primitives) (c : IdentityChain)
    (hc : ∀ i b, c.Blocks[i]? = some b → SoundAt P c i b) : StructurallySound P c := by
  intro i b hb
  obtain ⟨h1, h2, h3, h4⟩ := hc i b hb
  refine ⟨h1, ?_, ?_, h3, h4⟩
  · intro hi
    subst hi
    rw [h2]
    rfl
  · intro p hpos hp
    rw [h2]
    unfold expectedPrev
    simp only [gt_iff_lt, hpos, if_true, List.get?_eq_getElem?, hp]

end Chain

/-- C19: every chain obtained from `NewIdentityChain` by a finite run of `AppendEvent` calls,
whatever the events and keys and however each call ends, keeps the structural invariants: at
every position `i` the block has index `i`, block 0 points to `GENESIS`, every later block to
the hash of the block before it, the hash is the link hash of the block's fields and the signer
key is the chain's root key, which is still the base64 text of the key the chain was made
with. -/
theorem C19_built_chains_sound (P : Primitives) (now : Time) (ownerID : String)
    (rootPublicKey : Bytes) (calls : List (Clock × Chain.IdentityEvent × Bytes)) :
    ∃ c, Chain.appendCalls P (some (Chain.NewIdentityChain now ownerID rootPublicKey)) calls
        = some c
      ∧ c.OwnerID = ownerID
      ∧ c.RootPublicKey = Base64.EncodeToString rootPublicKey
      ∧ Chain.StructurallySound P c := by
  obtain ⟨c, h1, h2, h3, h4⟩ := Chain.soundAt_appendCalls P calls
    (Chain.NewIdentityChain now ownerID rootPublicKey)
    (by
      intro i b hb
      simp [Chain.NewIdentityChain] at hb)
  exact ⟨c, h1, h2, h3, Chain.structurallySound_of_soundAt P c h4⟩

/-- C20 at the failing inputs: with a private key of one byte `AppendEvent` aborts where it
derives the public key, whatever the chain and the event; with a private key of 40 bytes whose
derived public key is the chain's root key it aborts where it signs. -/
theorem C20_append_aborts_on_short_key :
    (∀ (P : Primitives) (clk : Clock) (c : Chain.IdentityChain) (e : Chain.IdentityEvent),
        Chain.AppendEvent P clk (some c) e [7] = (some c, .fault))
      ∧ Ed25519.Public Example.paddedKey = some (List.replicate 8 7 ++ List.replicate 24 0)
      ∧ Chain.AppendEvent Example.primitives Example.clock (some Example.paddedRootChain)
          Example.login Example.paddedKey = (some Example.paddedRootChain, .fault) :=
  ⟨fun _ _ _ _ => rfl, by decide, by decide⟩

/-- C21: for a context whose risk is any text other than exactly `high` (empty, `HIGH`,
`critical`, ...), `ValidateRootAction` asks for two secondary factors only: it returns no error
exactly when `long_phrase` is true and at least two of `email_otp`, `totp` and `hardware` are
true. -/
theorem C21_unrecognised_risk (ctx : Auth.AuthContext) (hr : ctx.Risk ≠ "high") :
    Auth.ValidateRootAction ctx = .ok ↔
      ctx.LongPhrase = true ∧ 2 ≤ Auth.secondaryFactors ctx := by
  obtain ⟨lp, otp, totp, hw, risk⟩ := ctx
  have hrisk : ¬ risk = Auth.RiskHigh := hr
  cases lp <;> cases otp <;> cases totp <;> cases hw <;>
    simp [Auth.ValidateRootAction, Auth.factorCount, Auth.secondaryFactors, hrisk]

/-- C21 at a concrete context: long phrase, e-mail code and TOTP without hardware key are
accepted at the risk `HIGH`, which is not the text `high`. -/
theorem C21_unrecognised_risk_witness :
    Auth.ValidateRootAction ⟨true, true, true, false, "HIGH"⟩ = .ok :=
  (C21_unrecognised_risk ⟨true, true, true, false, "HIGH"⟩ (by decide)).mpr (by decide)

/-! ## Facts about the store with pointers -/

namespace Mem

open Chain

theorem ptr_clone_some (m : Memory) (p : Nat) (cell : ChainCell) (h : m.cells[p]? = some cell) :
    clone m (some p) =
      ({ cells := m.cells ++
          [{ cell with Blocks := ⟨m.arrays.length, 0, (readSlice m cell.Blocks).length⟩ }],
         arrays := m.arrays ++ [readSlice m cell.Blocks] }, some m.cells.length) := by
  simp only [clone, h]

theorem clone_cells_lt (m : Memory) (c : Option Nat) (p : Nat) (hp : p < m.cells.length) :
    (clone m c).1.cells[p]? = m.cells[p]? := by
  cases c with
  | none => rfl
  | some q =>
    cases hq : m.cells[q]? with
    | none => simp only [clone, hq]
    | some cell =>
      rw [ptr_clone_some m q cell hq]
      exact List.getElem?_append_left hp

theorem clone_arrays_lt (m : Memory) (c : Option Nat) (a : Nat) (ha : a < m.arrays.length) :
    (clone m c).1.arrays[a]? = m.arrays[a]? := by
  cases c with
  | none => rfl
  | some q =>
    cases hq : m.cells[q]? with
    | none => simp only [clone, hq]
    | some cell =>
      rw [ptr_clone_some m q cell hq]
      exact List.getElem?_append_left ha

theorem clone_cells_length_le (m : Memory) (c : Option Nat) :
    m.cells.length ≤ (clone m c).1.cells.length := by
  cases c with
  | none => exact Nat.le_refl _
  | some q =>
    cases hq : m.cells[q]? with
    | none => simp only [clone, hq, Nat.le_refl]
    | some cell =>
      rw [ptr_clone_some m q cell hq]
      simp

theorem clone_arrays_length_le (m : Memory) (c : Option Nat) :
    m.arrays.length ≤ (clone m c).1.arrays.length := by
  cases c with
  | none => exact Nat.le_refl _
  | some q =>
    cases hq : m.cells[q]? with
    | none => simp only [clone, hq, Nat.le_refl]
    | some cell =>
      rw [ptr_clone_some m q cell hq]
      simp

/-- The value behind a pointer depends on its struct and on the backing array of its slice. -/
theorem load_congr (m m2 : Memory) (p : Nat) (hcell : m2.cells[p]? = m.cells[p]?)
    (harr : ∀ cell, m.cells[p]? = some cell →
      m2.arrays[cell.Blocks.array]? = m.arrays[cell.Blocks.array]?) :
    load m2 p = load m p := by
  unfold load
  rw [hcell]
  cases h : m.cells[p]? with
  | none => rfl
  | some cell => simp only [readSlice, backing, harr cell h]

theorem clone_wellFormed (m : Memory) (c : Option Nat) (hwf : WellFormed m) :
    WellFormed (clone m c).1 := by
  cases c with
  | none => exact hwf
  | some q =>
    cases hq : m.cells[q]? with
    | none =>
      simp only [clone, hq]
      exact hwf
    | some cell =>
      rw [ptr_clone_some m q cell hq]
      intro x hx
      simp only [List.mem_append, List.mem_singleton, List.length_append,
        List.length_singleton] at hx ⊢
      rcases hx with hx | hx
      · exact Nat.lt_succ_of_lt (hwf x hx)
      · subst hx
        exact Nat.lt_succ_self _

/-- A clone leaves the value behind every pointer of the memory as it was. -/
theorem clone_load_old (m : Memory) (c : Option Nat) (p : Nat) (hwf : WellFormed m)
    (hp : p < m.cells.length) : load (clone m c).1 p = load m p := by
  apply load_congr
  · exact clone_cells_lt m c p hp
  · intro cell hcell
    have hmem : cell ∈ m.cells := List.getElem?_mem hcell
    exact clone_arrays_lt m c _ (hwf cell hmem)

/-- The clone of a pointer points to an equal value. -/
theorem clone_load_new (m : Memory) (q : Nat) (cell : ChainCell) (hq : m.cells[q]? = some cell) :
    (clone m (some q)).2 = some m.cells.length
      ∧ load (clone m (some q)).1 m.cells.length = load m q := by
  rw [ptr_clone_some m q cell hq]
  refine ⟨rfl, ?_⟩
  simp only [load, hq, List.getElem?_concat_length, readSlice, backing, Option.getD_some,
    List.drop_zero, List.take_length]

end Mem

namespace Mem

open Chain

theorem write_none (m : Memory) (p : Nat) (w : Write) (h : m.cells[p]? = none) :
    write m p w = m := by
  simp only [write, h]

/-- What one write through `p` touches: the struct at `p`, whose slice keeps its backing array
or gets a new one, and the backing array of that slice. -/
theorem write_frame (m : Memory) (p : Nat) (w : Write) (cell : ChainCell)
    (h : m.cells[p]? = some cell) :
    (∀ q, q ≠ p → (write m p w).cells[q]? = m.cells[q]?)
      ∧ (∃ nc, (write m p w).cells[p]? = some nc
          ∧ (nc.Blocks.array = cell.Blocks.array ∨ nc.Blocks.array = m.arrays.length))
      ∧ (∀ a, a ≠ cell.Blocks.array → a < m.arrays.length →
          (write m p w).arrays[a]? = m.arrays[a]?) := by
  have hp : p < m.cells.length := (List.getElem?_eq_some.mp h).1
  cases w with
  | ownerID v =>
    simp only [write, h]
    exact ⟨fun q hq => List.getElem?_set_ne (Ne.symm hq),
      ⟨_, List.getElem?_set_self hp, Or.inl rfl⟩, by intros; first | rfl | trivial⟩
  | rootPublicKey v =>
    simp only [write, h]
    exact ⟨fun q hq => List.getElem?_set_ne (Ne.symm hq),
      ⟨_, List.getElem?_set_self hp, Or.inl rfl⟩, by intros; first | rfl | trivial⟩
  | createdAt t =>
    simp only [write, h]
    exact ⟨fun q hq => List.getElem?_set_ne (Ne.symm hq),
      ⟨_, List.getElem?_set_self hp, Or.inl rfl⟩, by intros; first | rfl | trivial⟩
  | block i b =>
    simp only [write, h]
    by_cases hi : i < cell.Blocks.len
    · simp only [hi, if_true]
      exact ⟨by intros; first | rfl | trivial, ⟨cell, h, Or.inl rfl⟩,
        fun a ha _ => List.getElem?_set_ne (Ne.symm ha)⟩
    · simp only [hi, if_false]
      exact ⟨by intros; first | rfl | trivial, ⟨cell, h, Or.inl rfl⟩, by intros; first | rfl | trivial⟩
  | appendBlock b =>
    simp only [write, h]
    by_cases hi : cell.Blocks.len < capacity m cell.Blocks
    · simp only [hi, if_true]
      exact ⟨fun q hq => List.getElem?_set_ne (Ne.symm hq),
        ⟨_, List.getElem?_set_self hp, Or.inl rfl⟩,
        fun a ha _ => List.getElem?_set_ne (Ne.symm ha)⟩
    · simp only [hi, if_false]
      exact ⟨fun q hq => List.getElem?_set_ne (Ne.symm hq),
        ⟨_, List.getElem?_set_self hp, Or.inr rfl⟩,
        fun a _ ha => List.getElem?_append_left ha⟩

/-- A write through another pointer leaves a guarded struct guarded. -/
theorem guarded_write (m : Memory) (q : Nat) (cq : ChainCell) (arr : List BlockLink)
    (p : Nat) (w : Write) (hg : Guarded m q cq arr) (hp : p ≠ q) :
    Guarded (write m p w) q cq arr := by
  obtain ⟨hq, harr, hout⟩ := hg
  cases hcp : m.cells[p]? with
  | none =>
    rw [write_none m p w hcp]
    exact ⟨hq, harr, hout⟩
  | some cell =>
    have hdiff := hout p cell hp hcp
    have haq : cq.Blocks.array < m.arrays.length := (List.getElem?_eq_some.mp harr).1
    obtain ⟨hcells, ⟨nc, hnc, hncarr⟩, harrays⟩ := write_frame m p w cell hcp
    refine ⟨?_, ?_, ?_⟩
    · rw [hcells q (Ne.symm hp)]
      exact hq
    · rw [harrays _ (Ne.symm hdiff) haq]
      exact harr
    · intro p2 cp hp2 hcp2
      by_cases hpp : p2 = p
      · subst hpp
        rw [hnc] at hcp2
        simp only [Option.some.injEq] at hcp2
        subst hcp2
        rcases hncarr with h1 | h1
        · rw [h1]
          exact hdiff
        · rw [h1]
          exact Nat.ne_of_gt haq
      · rw [hcells p2 hpp] at hcp2
        exact hout p2 cp hp2 hcp2

/-- A clone leaves a guarded struct guarded, and its result is another pointer. -/
theorem guarded_clone (m : Memory) (q : Nat) (cq : ChainCell) (arr : List BlockLink)
    (c : Option Nat) (hg : Guarded m q cq arr) :
    Guarded (clone m c).1 q cq arr ∧ ∀ g, (clone m c).2 = some g → g ≠ q := by
  obtain ⟨hq, harr, hout⟩ := hg
  have hql : q < m.cells.length := (List.getElem?_eq_some.mp hq).1
  have haq : cq.Blocks.array < m.arrays.length := (List.getElem?_eq_some.mp harr).1
  cases c with
  | none => exact ⟨⟨hq, harr, hout⟩, fun g hg => by simp [clone] at hg⟩
  | some r =>
    cases hr : m.cells[r]? with
    | none =>
      simp only [clone, hr]
      exact ⟨⟨hq, harr, hout⟩, fun g hg => by simp at hg⟩
    | some cell =>
      rw [ptr_clone_some m r cell hr]
      refine ⟨⟨?_, ?_, ?_⟩, ?_⟩
      · rw [List.getElem?_append_left hql]
        exact hq
      · rw [List.getElem?_append_left haq]
        exact harr
      · intro p cp hp hcp
        by_cases hpl : p < m.cells.length
        · rw [List.getElem?_append_left hpl] at hcp
          exact hout p cp hp hcp
        · have hlen : p < (m.cells ++
              [{ cell with
                  Blocks := ⟨m.arrays.length, 0, (readSlice m cell.Blocks).length⟩ }]).length :=
            (List.getElem?_eq_some.mp hcp).1
          simp only [List.length_append, List.length_singleton] at hlen
          have hpe : p = m.cells.length := by omega
          subst hpe
          rw [List.getElem?_concat_length] at hcp
          simp only [Option.some.injEq] at hcp
          subst hcp
          exact Nat.ne_of_gt haq
      · intro g hg
        simp only [Option.some.injEq] at hg
        omega

/-- A new slice header for another struct, taken from a third struct, leaves a guarded struct
guarded. -/
theorem guarded_reslice (m : Memory) (q : Nat) (cq : ChainCell) (arr : List BlockLink)
    (p src lo hi : Nat) (hg : Guarded m q cq arr) (hp : p ≠ q) (hsrc : src ≠ q) :
    Guarded (reslice m p src lo hi) q cq arr := by
  obtain ⟨hq, harr, hout⟩ := hg
  unfold reslice
  cases hcp : m.cells[p]? with
  | none => exact ⟨hq, harr, hout⟩
  | some cell =>
    cases hcs : m.cells[src]? with
    | none => exact ⟨hq, harr, hout⟩
    | some other =>
      have hpl : p < m.cells.length := (List.getElem?_eq_some.mp hcp).1
      by_cases hb : lo ≤ hi ∧ hi ≤ capacity m other.Blocks
      · simp only [hb, and_self, if_true]
        refine ⟨?_, harr, ?_⟩
        · rw [List.getElem?_set_ne hp]
          exact hq
        · intro p2 cp hp2 hcp2
          by_cases hpp : p2 = p
          · subst hpp
            rw [List.getElem?_set_self hpl] at hcp2
            simp only [Option.some.injEq] at hcp2
            subst hcp2
            exact hout src other hsrc hcs
          · rw [List.getElem?_set_ne (Ne.symm hpp)] at hcp2
            exact hout p2 cp hp2 hcp2
      · simp only [hb, if_false]
        exact ⟨hq, harr, hout⟩

/-- A chain the caller builds leaves a guarded struct guarded, and its pointer is another one. -/
theorem guarded_alloc (m : Memory) (q : Nat) (cq : ChainCell) (arr : List BlockLink)
    (v : IdentityChain) (hg : Guarded m q cq arr) :
    Guarded (alloc m v).1 q cq arr ∧ (alloc m v).2 ≠ q := by
  obtain ⟨hq, harr, hout⟩ := hg
  have hql : q < m.cells.length := (List.getElem?_eq_some.mp hq).1
  have haq : cq.Blocks.array < m.arrays.length := (List.getElem?_eq_some.mp harr).1
  simp only [alloc]
  refine ⟨⟨?_, ?_, ?_⟩, Nat.ne_of_gt hql⟩
  · rw [List.getElem?_append_left hql]
    exact hq
  · rw [List.getElem?_append_left haq]
    exact harr
  · intro p cp hp hcp
    by_cases hpl : p < m.cells.length
    · rw [List.getElem?_append_left hpl] at hcp
      exact hout p cp hp hcp
    · have hlen := (List.getElem?_eq_some.mp hcp).1
      simp only [List.length_append, List.length_singleton] at hlen
      have hpe : p = m.cells.length := by omega
      subst hpe
      rw [List.getElem?_concat_length] at hcp
      simp only [Option.some.injEq] at hcp
      subst hcp
      exact Nat.ne_of_gt haq

theorem guarded_cloneAll (q : Nat) (cq : ChainCell) (arr : List BlockLink)
    (chains : PointerMap) :
    ∀ m : Memory, Guarded m q cq arr →
      Guarded (cloneAll m chains).1 q cq arr ∧ ∀ g, some g ∈ (cloneAll m chains).2 → g ≠ q := by
  induction chains with
  | nil =>
    intro m hg
    exact ⟨hg, fun g hmem => by simp [cloneAll] at hmem⟩
  | cons e rest ih =>
    intro m hg
    obtain ⟨h1, h2⟩ := guarded_clone m q cq arr e.2 hg
    obtain ⟨h3, h4⟩ := ih (clone m e.2).1 h1
    refine ⟨h3, ?_⟩
    intro g hmem
    simp only [cloneAll, List.mem_cons] at hmem
    rcases hmem with hmem | hmem
    · exact h2 g hmem.symm
    · exact h4 g hmem

/-- A step of a caller that does not hold the pointer `q` leaves the struct at `q` guarded and
hands the caller no pointer equal to `q`. -/
theorem guarded_step (s : FileStore) (q : Nat) (cq : ChainCell) (arr : List BlockLink)
    (st : Memory × List Nat) (x : Step) (hg : Guarded st.1 q cq arr)
    (hh : ∀ p ∈ st.2, p ≠ q) :
    Guarded (step s st x).1 q cq arr ∧ ∀ p ∈ (step s st x).2, p ≠ q := by
  cases x with
  | write i w =>
    simp only [step]
    cases hi : st.2[i]? with
    | none => exact ⟨hg, hh⟩
    | some p => exact ⟨guarded_write _ _ _ _ p w hg (hh p (List.getElem?_mem hi)), hh⟩
  | reslice i j lo hi =>
    simp only [step]
    cases hi2 : st.2[i]? with
    | none => exact ⟨hg, hh⟩
    | some p =>
      cases hj : st.2[j]? with
      | none => exact ⟨hg, hh⟩
      | some src =>
        exact ⟨guarded_reslice _ _ _ _ p src lo hi hg (hh p (List.getElem?_mem hi2))
          (hh src (List.getElem?_mem hj)), hh⟩
  | build v =>
    simp only [step]
    obtain ⟨h1, h2⟩ := guarded_alloc st.1 q cq arr v hg
    refine ⟨h1, ?_⟩
    intro p hp
    simp only [List.mem_append, List.mem_singleton] at hp
    rcases hp with hp | hp
    · exact hh p hp
    · rw [hp]
      exact h2
  | get k =>
    simp only [step, FileStore.Get]
    cases hl : s.chains.lookup k with
    | none =>
      simp only [kept, List.append_nil]
      exact ⟨hg, hh⟩
    | some c =>
      obtain ⟨h1, h2⟩ := guarded_clone st.1 q cq arr c hg
      refine ⟨h1, ?_⟩
      intro p hp
      simp only [List.mem_append] at hp
      rcases hp with hp | hp
      · exact hh p hp
      · cases hc : (clone st.1 c).2 with
        | none =>
          rw [hc] at hp
          simp [kept] at hp
        | some g =>
          rw [hc] at hp
          simp only [kept, List.mem_singleton] at hp
          subst hp
          exact h2 p hc
  | list =>
    simp only [step, FileStore.List]
    obtain ⟨h1, h2⟩ := guarded_cloneAll q cq arr s.chains st.1 hg
    refine ⟨h1, ?_⟩
    intro p hp
    simp only [List.mem_append, keptAll, List.mem_filterMap, id_eq] at hp
    rcases hp with hp | hp
    · exact hh p hp
    · obtain ⟨a, ha, hap⟩ := hp
      subst hap
      exact h2 p ha

theorem guarded_run (s : FileStore) (q : Nat) (cq : ChainCell) (arr : List BlockLink)
    (steps : List Step) :
    ∀ st : Memory × List Nat, Guarded st.1 q cq arr → (∀ p ∈ st.2, p ≠ q) →
      Guarded (run s st steps).1 q cq arr := by
  induction steps with
  | nil =>
    intro st hg _
    exact hg
  | cons x rest ih =>
    intro st hg hh
    obtain ⟨h1, h2⟩ := guarded_step s q cq arr st x hg hh
    exact ih (step s st x) h1 h2

/-- The value behind a guarded struct. -/
theorem guarded_load (m : Memory) (q : Nat) (cq : ChainCell) (arr : List BlockLink)
    (hg : Guarded m q cq arr) :
    load m q = some { OwnerID := cq.OwnerID, RootPublicKey := cq.RootPublicKey,
                      CreatedAt := cq.CreatedAt,
                      Blocks := (arr.drop cq.Blocks.off).take cq.Blocks.len } := by
  obtain ⟨hq, harr, _⟩ := hg
  simp only [load, hq, readSlice, backing, harr, Option.getD_some]

end Mem

namespace Mem

open Chain

theorem ptr_lookup_mapSet (pm : PointerMap) (k : String) (v : Option Nat) :
    (mapSet pm k v).lookup k = some v := by
  induction pm with
  | nil => simp [mapSet, List.lookup]
  | cons p rest ih =>
    obtain ⟨k0, v0⟩ := p
    by_cases h : k0 = k
    · simp [mapSet, h, List.lookup]
    · have h2 : (k == k0) = false := by
        simp only [beq_eq_false_iff_ne, ne_eq]
        exact fun hk => h hk.symm
      simp [mapSet, h, List.lookup, h2, ih]

theorem ptr_mem_mapSet (pm : PointerMap) (k : String) (v : Option Nat) (p : String × Option Nat)
    (hp : p ∈ mapSet pm k v) : p = (k, v) ∨ p ∈ pm := by
  induction pm with
  | nil =>
    left
    simpa [mapSet] using hp
  | cons q rest ih =>
    obtain ⟨k0, v0⟩ := q
    by_cases h : k0 = k
    · simp only [mapSet, h, if_true, List.mem_cons] at hp
      rcases hp with hp | hp
      · exact Or.inl hp
      · exact Or.inr (List.mem_cons_of_mem _ hp)
    · simp only [mapSet, h, if_false, List.mem_cons] at hp
      rcases hp with hp | hp
      · exact Or.inr (hp ▸ List.mem_cons_self _ _)
      · rcases ih hp with h1 | h1
        · exact Or.inl h1
        · exact Or.inr (List.mem_cons_of_mem _ h1)

theorem ptr_keys_mapSet (pm : PointerMap) (k : String) (v : Option Nat) :
    (mapSet pm k v).map Prod.fst
      = if k ∈ pm.map Prod.fst then pm.map Prod.fst else pm.map Prod.fst ++ [k] := by
  induction pm with
  | nil => simp [mapSet]
  | cons p rest ih =>
    obtain ⟨k0, v0⟩ := p
    by_cases h : k0 = k
    · simp [mapSet, h]
    · have hne : ¬ k = k0 := fun hk => h hk.symm
      by_cases hmem : k ∈ rest.map Prod.fst
      · simp only [mapSet, h, if_false, List.map_cons, ih, hmem, if_true, List.mem_cons,
          or_true]
      · simp only [mapSet, h, if_false, List.map_cons, ih, hmem, List.mem_cons, hne,
          or_self, List.cons_append]

theorem ptr_nodup_keys_mapSet (pm : PointerMap) (k : String) (v : Option Nat)
    (h : (pm.map Prod.fst).Nodup) : ((mapSet pm k v).map Prod.fst).Nodup := by
  rw [ptr_keys_mapSet]
  by_cases hmem : k ∈ pm.map Prod.fst
  · simp only [hmem, if_true]
    exact h
  · simp only [hmem, if_false]
    exact List.Nodup.append h (List.nodup_singleton k) (by simpa using hmem)

theorem ptr_lookup_of_mem (pm : PointerMap) (h : (pm.map Prod.fst).Nodup) :
    ∀ p ∈ pm, pm.lookup p.1 = some p.2 := by
  induction pm with
  | nil => simp
  | cons q rest ih =>
    obtain ⟨k0, v0⟩ := q
    simp only [List.map_cons, List.nodup_cons] at h
    intro p hp
    rcases List.mem_cons.mp hp with hp | hp
    · subst hp
      simp [List.lookup]
    · have hne : (p.1 == k0) = false := by
        simp only [beq_eq_false_iff_ne, ne_eq]
        intro hk
        exact h.1 (hk ▸ List.mem_map_of_mem Prod.fst hp)
      simp only [List.lookup, hne]
      exact ih h.2 p hp

theorem ptr_saveLocked_chains (fs : Store.FsAnswers) (m : Memory) (s : FileStore) :
    (FileStore.saveLocked fs m s).1.chains = s.chains := by
  unfold FileStore.saveLocked
  repeat' split
  all_goals rfl

/-- The value behind the clone of a pointer of the store. -/
theorem clone_loadPtr (m : Memory) (c : Option Nat)
    (hc : ∀ p, c = some p → p < m.cells.length) :
    loadPtr (clone m c).1 (clone m c).2 = loadPtr m c := by
  cases c with
  | none => rfl
  | some q =>
    have hq := hc q rfl
    have hcell : m.cells[q]? = some m.cells[q] := List.getElem?_eq_getElem hq
    obtain ⟨h1, h2⟩ := clone_load_new m q _ hcell
    rw [h1]
    exact h2

/-- What `Get` returns for an owner of the store is the value behind the store's pointer. -/
theorem getValue_of_lookup (m : Memory) (s : FileStore) (k : String) (c : Option Nat)
    (hc : ∀ p, c = some p → p < m.cells.length)
    (hl : s.chains.lookup k = some c) : getValue m s k = .ok (loadPtr m c) := by
  simp only [getValue, FileStore.Get, hl, clone_loadPtr m c hc]

theorem cloneAll_spec (chains : PointerMap) :
    ∀ m : Memory, WellFormed m →
      (∀ entry ∈ chains, ∀ p, entry.2 = some p → p < m.cells.length) →
      WellFormed (cloneAll m chains).1
        ∧ m.cells.length ≤ (cloneAll m chains).1.cells.length
        ∧ (∀ p, p < m.cells.length → load (cloneAll m chains).1 p = load m p)
        ∧ (cloneAll m chains).2.map (loadPtr (cloneAll m chains).1)
          = chains.map (fun entry => loadPtr m entry.2) := by
  induction chains with
  | nil =>
    intro m hwf _
    exact ⟨hwf, Nat.le_refl _, fun _ _ => rfl, rfl⟩
  | cons e rest ih =>
    intro m hwf hvalid
    have hwf1 := clone_wellFormed m e.2 hwf
    have hlen1 := clone_cells_length_le m e.2
    have hvalid1 : ∀ entry ∈ rest, ∀ p, entry.2 = some p → p < (clone m e.2).1.cells.length :=
      fun entry hentry p hp =>
        Nat.lt_of_lt_of_le (hvalid entry (List.mem_cons_of_mem _ hentry) p hp) hlen1
    obtain ⟨h1, h2, h3, h4⟩ := ih (clone m e.2).1 hwf1 hvalid1
    have hold : ∀ p, p < m.cells.length →
        load (cloneAll (clone m e.2).1 rest).1 p = load m p := by
      intro p hp
      rw [h3 p (Nat.lt_of_lt_of_le hp hlen1)]
      exact clone_load_old m e.2 p hwf hp
    have hhead : loadPtr (cloneAll (clone m e.2).1 rest).1 (clone m e.2).2 = loadPtr m e.2 := by
      rw [← clone_loadPtr m e.2 (hvalid e (List.mem_cons_self _ _))]
      cases hc : (clone m e.2).2 with
      | none => rfl
      | some g =>
        have hg : g < (clone m e.2).1.cells.length := by
          cases he : e.2 with
          | none =>
            rw [he] at hc
            simp [clone] at hc
          | some q =>
            have hq := hvalid e (List.mem_cons_self _ _) q he
            have hcell : m.cells[q]? = some m.cells[q] := List.getElem?_eq_getElem hq
            rw [he] at hc
            rw [ptr_clone_some m q _ hcell] at hc ⊢
            simp only [Option.some.injEq] at hc
            subst hc
            simp
        exact h3 g hg
    refine ⟨h1, Nat.le_trans hlen1 h2, hold, ?_⟩
    simp only [cloneAll, List.map_cons, hhead, h4, List.cons.injEq, true_and]
    apply List.map_congr_left
    intro entry hentry
    cases he : entry.2 with
    | none => rfl
    | some q =>
      exact clone_load_old m e.2 q hwf (hvalid entry (List.mem_cons_of_mem _ hentry) q he)

/-- In a well-formed memory, a store whose pointers are places of the memory and whose owners
are pairwise different lists one chain per owner. -/
theorem listsOnePerOwner_of_sound (m : Memory) (s : FileStore) (hwf : WellFormed m)
    (hs : Sound m s) (hnd : (owners s).Nodup) : ListsOnePerOwner m s := by
  obtain ⟨_, _, _, h4⟩ := cloneAll_spec s.chains m hwf hs
  refine ⟨hnd, s.chains.map (fun entry => loadPtr m entry.2), ?_, ?_⟩
  · simp only [listValues, FileStore.List, h4]
  · unfold owners
    rw [List.forall₂_map_left_iff, List.forall₂_map_right_iff, List.forall₂_same]
    intro p hp
    exact getValue_of_lookup m s p.1 p.2 (hs p hp) (ptr_lookup_of_mem s.chains hnd p hp)

end Mem

namespace Mem

open Chain

theorem clone_facts (m : Memory) (p : Nat) (cell : ChainCell) (h : m.cells[p]? = some cell) :
    (clone m (some p)).1.cells.length = m.cells.length + 1
      ∧ (clone m (some p)).1.arrays.length = m.arrays.length + 1
      ∧ (clone m (some p)).1.arrays[m.arrays.length]? = some (readSlice m cell.Blocks)
      ∧ ∃ dup, (clone m (some p)).1.cells[m.cells.length]? = some dup
          ∧ dup.Blocks.array = m.arrays.length := by
  rw [ptr_clone_some m p cell h]
  exact ⟨by simp, by simp, by simp, _, List.getElem?_concat_length _ _, rfl⟩

theorem load_ownerID (m : Memory) (p : Nat) (cell : ChainCell) (v : IdentityChain)
    (hcell : m.cells[p]? = some cell) (hv : load m p = some v) : v.OwnerID = cell.OwnerID := by
  simp only [load, hcell, Option.some.injEq] at hv
  rw [← hv]

/-- A chain that the store holds under a pointer made by `clone` reads back, whatever the caller
does with the pointers it had before the call and with the copies it is given after it. -/
theorem readsBack_of_stored (m : Memory) (s1 : FileStore) (c : Nat) (cell : ChainCell)
    (v : IdentityChain) (held : List Nat) (hwf : WellFormed m)
    (hcell : m.cells[c]? = some cell) (hv : load m c = some v)
    (hheld : ∀ p ∈ held, p < m.cells.length)
    (hl : s1.chains.lookup v.OwnerID = some (some m.cells.length)) :
    ReadsBack (clone m (some c)).1 s1 held v := by
  obtain ⟨hlen1, halen1, harr1, dup, hdup, hduparr⟩ := clone_facts m c cell hcell
  have hload1 : load (clone m (some c)).1 m.cells.length = some v := by
    rw [(clone_load_new m c cell hcell).2]
    exact hv
  have hguard : Guarded (clone m (some c)).1 m.cells.length dup (readSlice m cell.Blocks) := by
    refine ⟨hdup, ?_, ?_⟩
    · rw [hduparr]
      exact harr1
    · intro p cp hp hcp
      have hpl : p < (clone m (some c)).1.cells.length := (List.getElem?_eq_some.mp hcp).1
      have hpm : p < m.cells.length := by omega
      rw [clone_cells_lt _ _ _ hpm] at hcp
      have := hwf cp (List.getElem?_mem hcp)
      omega
  intro steps
  have hg3 := guarded_run s1 m.cells.length dup (readSlice m cell.Blocks) steps
    ((clone m (some c)).1, held) hguard (fun p hp => Nat.ne_of_lt (hheld p hp))
  obtain ⟨hp3, hl3⟩ := clone_load_new _ m.cells.length dup hg3.1
  simp only [getValue, FileStore.Get, hl, hp3, loadPtr, Option.some_bind, hl3]
  rw [guarded_load _ _ _ _ hg3, ← guarded_load _ _ _ _ hguard, hload1]

theorem Create_ok (fs : Store.FsAnswers) (m : Memory) (s : FileStore) (c : Nat)
    (cell : ChainCell) (hcell : m.cells[c]? = some cell)
    (hok : (FileStore.Create fs m s (some c)).2.2 = .ok) :
    (FileStore.Create fs m s (some c)).1 = (clone m (some c)).1
      ∧ (FileStore.Create fs m s (some c)).2.1.chains
        = mapSet s.chains cell.OwnerID (some m.cells.length) := by
  revert hok
  simp only [FileStore.Create, hcell]
  by_cases h1 : cell.OwnerID = ""
  · simp [h1]
  · cases h2 : s.chains.lookup cell.OwnerID with
    | some x => simp [h1]
    | none =>
      simp only [h1, if_false, ptr_saveLocked_chains, (clone_load_new m c cell hcell).1]
      exact fun _ => ⟨trivial, trivial⟩

theorem Update_ok (fs : Store.FsAnswers) (m : Memory) (s : FileStore) (c : Nat)
    (cell : ChainCell) (hcell : m.cells[c]? = some cell)
    (hok : (FileStore.Update fs m s (some c)).2.2 = .ok) :
    (FileStore.Update fs m s (some c)).1 = (clone m (some c)).1
      ∧ (FileStore.Update fs m s (some c)).2.1.chains
        = mapSet s.chains cell.OwnerID (some m.cells.length) := by
  revert hok
  simp only [FileStore.Update, hcell]
  by_cases h1 : cell.OwnerID = ""
  · simp [h1]
  · cases h2 : s.chains.lookup cell.OwnerID with
    | none => simp [h1]
    | some x =>
      simp only [h1, if_false, ptr_saveLocked_chains, (clone_load_new m c cell hcell).1]
      exact fun _ => ⟨trivial, trivial⟩

/-- After a new entry made by `clone` the store is sound in the new memory. -/
theorem sound_after_store (m : Memory) (s s1 : FileStore) (c : Nat) (cell : ChainCell)
    (k : String) (hcell : m.cells[c]? = some cell) (hs : Sound m s)
    (hch : s1.chains = mapSet s.chains k (some m.cells.length)) :
    Sound (clone m (some c)).1 s1 := by
  have hlen := (clone_facts m c cell hcell).1
  intro entry hentry p hp
  rw [hch] at hentry
  rcases ptr_mem_mapSet _ _ _ _ hentry with h | h
  · subst h
    simp only [Option.some.injEq] at hp
    omega
  · have := hs entry h p hp
    omega

end Mem

/-- C12: for every chain `v` that a caller holds behind a pointer `c`, after a `Create(c)` or an
`Update(c)` that returns no error, `Get(v.owner_id)` returns a chain equal to `v` in every field,
and it goes on returning a chain equal to `v` whatever the caller then does: writes to the fields
and blocks of `c`, writes through the other pointers `held` it had before the call, reads of the
store, and writes through every copy those reads hand to it. The listing after the call has
exactly one chain per stored owner. Before the call the memory is well formed, the pointers of
the store are places of it and its map has one entry per owner. -/
theorem C12_read_after_write (fs : Store.FsAnswers) (m : Mem.Memory) (s : Mem.FileStore)
    (c : Nat) (v : Chain.IdentityChain) (held : List Nat)
    (hwf : Mem.WellFormed m) (hs : Mem.Sound m s) (hnd : (Mem.owners s).Nodup)
    (hv : Mem.load m c = some v) (hheld : ∀ p ∈ held, p < m.cells.length) :
    ((Mem.FileStore.Create fs m s (some c)).2.2 = .ok →
        Mem.ReadsBack (Mem.FileStore.Create fs m s (some c)).1
            (Mem.FileStore.Create fs m s (some c)).2.1 (c :: held) v
          ∧ Mem.ListsOnePerOwner (Mem.FileStore.Create fs m s (some c)).1
            (Mem.FileStore.Create fs m s (some c)).2.1)
      ∧ ((Mem.FileStore.Update fs m s (some c)).2.2 = .ok →
        Mem.ReadsBack (Mem.FileStore.Update fs m s (some c)).1
            (Mem.FileStore.Update fs m s (some c)).2.1 (c :: held) v
          ∧ Mem.ListsOnePerOwner (Mem.FileStore.Update fs m s (some c)).1
            (Mem.FileStore.Update fs m s (some c)).2.1) := by
  cases hcell : m.cells[c]? with
  | none => simp [Mem.load, hcell] at hv
  | some cell =>
    have hc : c < m.cells.length := (List.getElem?_eq_some.mp hcell).1
    have hown := Mem.load_ownerID m c cell v hcell hv
    have hheld2 : ∀ p ∈ c :: held, p < m.cells.length := by
      intro p hp
      rcases List.mem_cons.mp hp with hp | hp
      · rw [hp]
        exact hc
      · exact hheld p hp
    have hwf1 := Mem.clone_wellFormed m (some c) hwf
    constructor
    · intro hok
      obtain ⟨hmem, hch⟩ := Mem.Create_ok fs m s c cell hcell hok
      rw [hmem]
      constructor
      · apply Mem.readsBack_of_stored m _ c cell v (c :: held) hwf hcell hv hheld2
        rw [hch, hown]
        exact Mem.ptr_lookup_mapSet _ _ _
      · apply Mem.listsOnePerOwner_of_sound _ _ hwf1
        · exact Mem.sound_after_store m s _ c cell _ hcell hs hch
        · unfold Mem.owners
          rw [hch]
          exact Mem.ptr_nodup_keys_mapSet _ _ _ hnd
    · intro hok
      obtain ⟨hmem, hch⟩ := Mem.Update_ok fs m s c cell hcell hok
      rw [hmem]
      constructor
      · apply Mem.readsBack_of_stored m _ c cell v (c :: held) hwf hcell hv hheld2
        rw [hch, hown]
        exact Mem.ptr_lookup_mapSet _ _ _
      · apply Mem.listsOnePerOwner_of_sound _ _ hwf1
        · exact Mem.sound_after_store m s _ c cell _ hcell hs hch
        · unfold Mem.owners
          rw [hch]
          exact Mem.ptr_nodup_keys_mapSet _ _ _ hnd

/-- C12 at a store that has the one-block example chain of owner `u`: the caller, who holds its
own chain with a second block behind the pointer `0` and an earlier copy behind `2`, updates the
store with its chain. -/
theorem C12_read_after_write_witness :
    Mem.WellFormed Mem.exampleMemory
      ∧ Mem.Sound Mem.exampleMemory Mem.exampleStore
      ∧ (Mem.owners Mem.exampleStore).Nodup
      ∧ Mem.load Mem.exampleMemory 0 = some Example.twoBlockChain
      ∧ (Mem.FileStore.Update ⟨true, true, true⟩ Mem.exampleMemory Mem.exampleStore
          (some 0)).2.2 = .ok
      ∧ Mem.ReadsBack
          (Mem.FileStore.Update ⟨true, true, true⟩ Mem.exampleMemory Mem.exampleStore (some 0)).1
          (Mem.FileStore.Update ⟨true, true, true⟩ Mem.exampleMemory Mem.exampleStore
            (some 0)).2.1 [0, 2] Example.twoBlockChain
      ∧ Mem.ListsOnePerOwner
          (Mem.FileStore.Update ⟨true, true, true⟩ Mem.exampleMemory Mem.exampleStore (some 0)).1
          (Mem.FileStore.Update ⟨true, true, true⟩ Mem.exampleMemory Mem.exampleStore
            (some 0)).2.1 :=
  ⟨by decide, by decide, by decide, by decide, by decide,
    (C12_read_after_write ⟨true, true, true⟩ Mem.exampleMemory Mem.exampleStore 0
      Example.twoBlockChain [2] (by decide) (by decide) (by decide) (by decide)
      (by decide)).2 (by decide)⟩

/-- What `Time.MarshalJSON` accepts, in seconds: the wall clock of the value's own location lies
between the start of year 0 and the start of year 10000, and the offset of the location is less
than 24 hours to either side. -/
theorem Time.marshalable_iff (t : Time) :
    t.marshalable = true ↔
      (Time.yearZeroStart ≤ t.sec + t.offset ∧ t.sec + t.offset < Time.yearTenThousandStart)
        ∧ t.offset.natAbs < 86400 := by
  simp only [Time.marshalable, Time.yearInRange, Time.zoneHour, Bool.and_eq_true,
    decide_eq_true_eq]
  constructor
  · rintro ⟨h1, h2⟩
    refine ⟨h1, ?_⟩
    omega
  · rintro ⟨h1, h2⟩
    refine ⟨h1, ?_⟩
    omega

namespace Chain

/-- The serialisation branch of `AppendEvent` looks at the timestamp in its own location: a
zone hour of 24 is refused in the year 2024, a wall clock in the year 10000 is refused though
the instant lies in the year 9999 of UTC, and a wall clock in the year 9999 is written though
the instant lies in the year 10000 of UTC. -/
theorem AppendEvent_zoned_timestamps :
    (AppendEvent Example.primitives Example.clock (some Example.emptyChain) Example.zonedLogin
        (Ed25519.NewKeyFromSeed Example.primitives Example.seed)).2 = .error .marshalEvent
      ∧ (AppendEvent Example.primitives Example.clock (some Example.emptyChain)
          Example.eastLogin
          (Ed25519.NewKeyFromSeed Example.primitives Example.seed)).2 = .error .marshalEvent
      ∧ (AppendEvent Example.primitives Example.clock (some Example.emptyChain)
          Example.westLogin
          (Ed25519.NewKeyFromSeed Example.primitives Example.seed)).2 = .ok
      ∧ (Example.eastLogin.Timestamp.UTC).marshalable = true
      ∧ (Example.westLogin.Timestamp.UTC).marshalable = false := by
  decide

end Chain

namespace Mem

/-- The steps of the example change what the caller holds: it holds five pointers at the end,
the chain behind each of them differs from the chain it stored, and the store returns the chain
of the update. -/
theorem exampleSteps_run :
    afterUpdate.2.2 = .ok
      ∧ (run afterUpdate.2.1 (afterUpdate.1, [0, 2]) exampleSteps).2 = [0, 2, 4, 5, 6]
      ∧ (∀ p ∈ [0, 2, 4, 5, 6],
          load (run afterUpdate.2.1 (afterUpdate.1, [0, 2]) exampleSteps).1 p
            ≠ some Example.twoBlockChain)
      ∧ getValue (run afterUpdate.2.1 (afterUpdate.1, [0, 2]) exampleSteps).1 afterUpdate.2.1 "u"
          = .ok (some Example.twoBlockChain) := by
  decide

end Mem

end DigitalIdentity
